import Mathlib

/-!
Verification of the video composition and segment-timing engine of the
youtube_shorts_pipeline repository.

The definitions below are shallow embeddings of the Python sources:
* `src/src/video_editor/video_composer.py` (Part Splitter, Frame Fitter,
  Composer orchestration), and
* `src/src/subtitle_generator/whisper_subtitles.py` (Segment Timer and
  subtitle text cleanup).

Durations and timestamps are modelled as rationals (`ℚ`); pixel counts as
naturals; Python strings as `List Char`.
-/

namespace ShortsPipeline

/-! ## Part Splitter

Embedding of `VideoComposer._split_and_export_video`
(`video_composer.py`, lines 238-277).

Python source being modelled:
  `num_parts = int(total_duration / max_duration) + (1 if total_duration % max_duration > 0 else 0)`
  `start_time = part_num * max_duration`
  `end_time = min((part_num + 1) * max_duration, total_duration)`

Python `%` on positive reals is `a - b * floor (a / b)`, and `int` of a
positive real is its floor.
-/

/-- Python's `a % b` for `b > 0`: `a - b * ⌊a / b⌋`. -/
def pyMod (a b : ℚ) : ℚ := a - b * ⌊a / b⌋

/-- `num_parts` from `_split_and_export_video` (line 244). -/
def numParts (total_duration max_duration : ℚ) : ℤ :=
  ⌊total_duration / max_duration⌋ +
    (if pyMod total_duration max_duration > 0 then 1 else 0)

/-- `start_time` for part `i` (0-based, line 250). -/
def partStart (max_duration : ℚ) (i : ℕ) : ℚ := i * max_duration

/-- `end_time` for part `i` (0-based, line 251). -/
def partEnd (total_duration max_duration : ℚ) (i : ℕ) : ℚ :=
  min ((i + 1) * max_duration) total_duration

lemma pyMod_pos_iff {t m : ℚ} (hm : 0 < m) :
    pyMod t m > 0 ↔ Int.fract (t / m) ≠ 0 := by
  have h : pyMod t m = m * Int.fract (t / m) := by
    unfold pyMod Int.fract
    field_simp
  rw [h]
  constructor
  · intro hpos h0
    rw [h0, mul_zero] at hpos
    exact lt_irrefl 0 hpos
  · intro hne
    have hfr : 0 ≤ Int.fract (t / m) := Int.fract_nonneg _
    have : 0 < Int.fract (t / m) := lt_of_le_of_ne hfr (Ne.symm hne)
    exact mul_pos hm this

lemma numParts_eq_ceil {t m : ℚ} (hm : 0 < m) :
    numParts t m = ⌈t / m⌉ := by
  unfold numParts
  rcases eq_or_ne (Int.fract (t / m)) 0 with h0 | h0
  · have hfl : (⌊t / m⌋ : ℚ) = t / m := by
      unfold Int.fract at h0
      linarith
    rw [if_neg, add_zero]
    · conv_rhs => rw [← hfl]
      rw [Int.ceil_intCast]
    · rw [pyMod_pos_iff hm]
      simp [h0]
  · rw [if_pos ((pyMod_pos_iff hm).mpr h0)]
    symm
    rw [Int.ceil_eq_iff]
    constructor
    · push_cast
      have hlt : (⌊t / m⌋ : ℚ) < t / m := by
        rcases lt_or_eq_of_le (Int.floor_le (t / m)) with hc | hc
        · exact hc
        · exact absurd (by unfold Int.fract; linarith) h0
      linarith
    · push_cast
      linarith [Int.lt_floor_add_one (t / m)]

/-- C1: for `total_duration > max_duration > 0`, `_split_and_export_video`
produces exactly `⌈total/max⌉` parts; part `i` spans
`[i*max, min((i+1)*max, total)]`; the first part starts at `0`; the last part
ends at `total`; consecutive parts are contiguous (hence non-overlapping,
as every span is non-empty); and every span is at most `max_duration`. -/
theorem partSplitter_spec (t m : ℚ) (hm : 0 < m) (htm : m < t) :
    numParts t m = ⌈t / m⌉ ∧
    partStart m 0 = 0 ∧
    (∀ i : ℕ, (i : ℤ) + 1 = numParts t m → partEnd t m i = t) ∧
    (∀ i : ℕ, (i : ℤ) + 1 < numParts t m → partEnd t m i = partStart m (i + 1)) ∧
    (∀ i : ℕ, (i : ℤ) < numParts t m → partStart m i < partEnd t m i) ∧
    (∀ i : ℕ, partEnd t m i - partStart m i ≤ m) := by
  have hceil := numParts_eq_ceil (t := t) hm
  have ht : 0 < t := lt_trans hm htm
  refine ⟨hceil, by simp [partStart], ?_, ?_, ?_, ?_⟩
  · intro i hi
    rw [hceil] at hi
    unfold partEnd
    have hle : t ≤ ((i : ℚ) + 1) * m := by
      have : t / m ≤ ((i : ℤ) + 1 : ℤ) := by
        rw [hi]; exact Int.le_ceil _
      have h2 : t / m * m ≤ (((i : ℤ) + 1 : ℤ) : ℚ) * m :=
        mul_le_mul_of_nonneg_right this (le_of_lt hm)
      rw [div_mul_cancel₀ _ (ne_of_gt hm)] at h2
      push_cast at h2 ⊢
      linarith
    exact min_eq_right hle
  · intro i hi
    rw [hceil] at hi
    unfold partEnd partStart
    have hlt : ((i : ℚ) + 1) * m ≤ t := by
      have h1 : ((i : ℤ) + 1) < ⌈t / m⌉ := hi
      have h2 : (((i : ℤ) + 1 : ℤ) : ℚ) < t / m := by
        rw [← Int.add_one_le_iff] at h1
        have := Int.ceil_le_floor_add_one (t / m)
        -- (i+1)+1 ≤ ⌈t/m⌉ means (i+1) < ⌈t/m⌉, so (i+1 : ℚ) < t/m
        exact_mod_cast Int.lt_ceil.mp h1
      have h3 : (((i : ℤ) + 1 : ℤ) : ℚ) * m < t / m * m :=
        mul_lt_mul_of_pos_right h2 hm
      rw [div_mul_cancel₀ _ (ne_of_gt hm)] at h3
      push_cast at h3 ⊢
      linarith
    rw [min_eq_left hlt]
    push_cast
    ring
  · intro i hi
    rw [hceil] at hi
    unfold partEnd partStart
    have h2 : (i : ℚ) < t / m := by
      have := Int.lt_ceil.mp hi
      exact_mod_cast this
    have h3 : (i : ℚ) * m < t := by
      have := mul_lt_mul_of_pos_right h2 hm
      rwa [div_mul_cancel₀ _ (ne_of_gt hm)] at this
    apply lt_min
    · have : (0 : ℚ) < m := hm
      nlinarith
    · exact h3
  · intro i
    unfold partEnd partStart
    have h1 := min_le_left (((i : ℚ) + 1) * m) t
    linarith

/-- Witness for `partSplitter_spec` at `total_duration = 185`, `max_duration = 90`
(the spec scenario: 3 parts `[0,90), [90,180), [180,185)`). -/
theorem partSplitter_spec_witness :
    numParts 185 90 = 3 ∧ partStart 90 0 = 0 ∧ partEnd 185 90 2 = 185 ∧
    partEnd 185 90 0 = partStart 90 1 ∧ partEnd 185 90 1 = partStart 90 2 ∧
    partStart 90 2 < partEnd 185 90 2 ∧ partEnd 185 90 1 - partStart 90 1 ≤ 90 := by
  obtain ⟨h1, h2, h3, h4, h5, h6⟩ :=
    partSplitter_spec 185 90 (by norm_num) (by norm_num)
  have hc : (⌈(185:ℚ)/90⌉ : ℤ) = 3 := by
    rw [Int.ceil_eq_iff] <;> norm_num
  refine ⟨h1.trans hc, h2, h3 2 (by rw [h1, hc]; norm_num), h4 0 (by rw [h1, hc]; norm_num),
    h4 1 (by rw [h1, hc]; norm_num), h5 2 (by rw [h1, hc]; norm_num), h6 1⟩

/-! ## Frame Fitter, temporal part

Embedding of the duration branch of `VideoComposer._process_background_video`
(`video_composer.py`, lines 207-218).

Python source being modelled (case `video_clip.duration < target_duration`):
  `loops_needed = int(target_duration / video_clip.duration) + 1`
  `processed_clip = processed_clip.loop(n=loops_needed)`
  `processed_clip = processed_clip.subclip(0, target_duration)`
-/

/-- `loops_needed` (line 210); `int` of a positive real is its floor. -/
def loopsNeeded (target_duration source_duration : ℚ) : ℤ :=
  ⌊target_duration / source_duration⌋ + 1

/-- The `subclip(0, target_duration)` window applied after looping (line 212). -/
def loopTrimWindow (target_duration : ℚ) : ℚ × ℚ := (0, target_duration)

lemma ceil_eq_floor_add_one_of_fract_ne {x : ℚ} (hx : Int.fract x ≠ 0) :
    ⌈x⌉ = ⌊x⌋ + 1 := by
  rw [Int.ceil_eq_iff]
  have hlt : (⌊x⌋ : ℚ) < x := by
    rcases lt_or_eq_of_le (Int.floor_le x) with hc | hc
    · exact hc
    · exact absurd (by unfold Int.fract; linarith) hx
  constructor
  · push_cast
    linarith
  · push_cast
    linarith [Int.lt_floor_add_one x]

/-- Counterexample to C4: with `source_duration = 5` and `target_duration = 10`
(so `0 < source < target`), the code computes `loops_needed = 3`, yet `2` loops
already reach the target (`2 * 5 ≥ 10`), so the computed count is not the
minimum whole number of loops whose combined duration is at least the target. -/
theorem frameFitter_loopCount_not_minimal :
    (0:ℚ) < 5 ∧ (5:ℚ) < 10 ∧ loopsNeeded 10 5 = 3 ∧
    (10:ℚ) ≤ 2 * 5 ∧ (2:ℤ) < 3 := by
  refine ⟨by norm_num, by norm_num, ?_, by norm_num, by norm_num⟩
  unfold loopsNeeded
  have : ⌊(10:ℚ)/5⌋ = 2 := by
    rw [Int.floor_eq_iff] <;> norm_num
  rw [this]
  norm_num

/-- C4 (amended): for `0 < source < target` the code loops the source
`⌊target/source⌋ + 1` times; the combined duration of that many loops is always
at least `target`; the count is the minimum such whole number whenever `source`
does not exactly divide `target` (`target % source ≠ 0`), and is one more than
the minimum (`target/source` loops already suffice) when it does; the looped
stream is trimmed to the window `[0, target]`. -/
theorem frameFitter_loop_spec (t s : ℚ) (hs : 0 < s) (hst : s < t) :
    loopsNeeded t s = ⌊t / s⌋ + 1 ∧
    t ≤ (loopsNeeded t s : ℚ) * s ∧
    (pyMod t s ≠ 0 → ∀ n : ℤ, t ≤ (n : ℚ) * s → loopsNeeded t s ≤ n) ∧
    (pyMod t s = 0 → ((loopsNeeded t s : ℚ) - 1) * s = t) ∧
    loopTrimWindow t = (0, t) := by
  have hs' : (s : ℚ) ≠ 0 := ne_of_gt hs
  have hmod : pyMod t s = s * Int.fract (t / s) := by
    unfold pyMod Int.fract
    field_simp
  refine ⟨rfl, ?_, ?_, ?_, rfl⟩
  · unfold loopsNeeded
    have h1 : t / s < ⌊t / s⌋ + 1 := Int.lt_floor_add_one _
    have h2 : t / s * s ≤ ((⌊t / s⌋ : ℚ) + 1) * s := by
      apply mul_le_mul_of_nonneg_right (le_of_lt h1) (le_of_lt hs)
    rw [div_mul_cancel₀ _ hs'] at h2
    push_cast
    linarith
  · intro hne n hn
    have hfr : Int.fract (t / s) ≠ 0 := by
      intro h0
      apply hne
      rw [hmod, h0, mul_zero]
    have hdiv : t / s ≤ (n : ℚ) := by
      rw [div_le_iff₀ hs]
      linarith
    have hceil : ⌈t / s⌉ ≤ n := Int.ceil_le.mpr hdiv
    unfold loopsNeeded
    rw [← ceil_eq_floor_add_one_of_fract_ne hfr]
    exact hceil
  · intro h0
    have hfr : Int.fract (t / s) = 0 := by
      rw [hmod] at h0
      rcases mul_eq_zero.mp h0 with h | h
      · exact absurd h hs'
      · exact h
    have hfl : (⌊t / s⌋ : ℚ) = t / s := by
      unfold Int.fract at hfr
      linarith
    unfold loopsNeeded
    push_cast
    rw [add_sub_cancel_right, hfl, div_mul_cancel₀ _ hs']

/-- Witness for `frameFitter_loop_spec` at `source = 4`, `target = 10`
(`10 % 4 = 2 ≠ 0`, so the computed count `3` is minimal). -/
theorem frameFitter_loop_spec_witness :
    loopsNeeded 10 4 = ⌊(10:ℚ) / 4⌋ + 1 ∧ (10:ℚ) ≤ (loopsNeeded 10 4 : ℚ) * 4 ∧
    loopsNeeded 10 4 ≤ 3 := by
  obtain ⟨h1, h2, h3, _, _⟩ := frameFitter_loop_spec 10 4 (by norm_num) (by norm_num)
  refine ⟨h1, h2, h3 ?_ 3 (by norm_num)⟩
  unfold pyMod
  have : ⌊(10:ℚ)/4⌋ = 2 := by
    rw [Int.floor_eq_iff] <;> norm_num
  rw [this]
  norm_num

/-! ## Frame Fitter, spatial part

Embedding of the resize/crop branch of `VideoComposer._process_background_video`
(`video_composer.py`, lines 171-205).

Python source being modelled:
  `video_aspect = video_width / video_height`
  `target_aspect = self.output_width / self.output_height`
  wider case (`video_aspect > target_aspect`):
    `new_height = self.output_height`
    `new_width = int(new_height * video_aspect)`
    `x_center = new_width // 2`
    `x_start = x_center - crop_width // 2`  with `crop_width = self.output_width`
    `crop(x1=x_start, x2=x_start + crop_width)`
  taller-or-equal case:
    `new_width = self.output_width`
    `new_height = int(new_width / video_aspect)`
    if `new_height > self.output_height`:
      `y_center = new_height // 2`
      `y_start = y_center - crop_height // 2`  with `crop_height = self.output_height`
      `crop(y1=y_start, y2=y_start + crop_height)`

`crop(a1, a2)` yields a span of `a2 - a1` pixels along the cropped axis and is
within the frame only when `0 ≤ a1` and `a2 ≤` the scaled length of that axis.
-/

structure FitResult where
  outWidth : ℤ
  outHeight : ℤ
  /-- start of the crop window along the cropped axis (`x_start` or `y_start`);
  `0` when no crop happens -/
  cropStart : ℤ
  /-- length of the crop window along the cropped axis -/
  cropLen : ℤ
  /-- scaled length of the cropped axis (`new_width` or `new_height`) -/
  scaledLen : ℤ
  deriving Repr, DecidableEq

/-- The spatial transform of `_process_background_video`:
target frame `W × H`, source frame `w × h`. -/
def fitFrame (W H w h : ℕ) : FitResult :=
  if (w : ℚ) / (h : ℚ) > (W : ℚ) / (H : ℚ) then
    -- video is wider: scale to target height, center-crop the width
    let new_height := H
    let new_width : ℕ := ⌊(new_height : ℚ) * ((w : ℚ) / (h : ℚ))⌋₊
    let x_center := new_width / 2
    let crop_width := W
    let x_start : ℤ := (x_center : ℤ) - ((crop_width / 2 : ℕ) : ℤ)
    { outWidth := (x_start + crop_width) - x_start, outHeight := new_height,
      cropStart := x_start, cropLen := crop_width, scaledLen := new_width }
  else
    -- video is taller or same aspect: scale to target width
    let new_width := W
    let new_height : ℕ := ⌊(new_width : ℚ) / ((w : ℚ) / (h : ℚ))⌋₊
    if H < new_height then
      -- still too tall: center-crop the height
      let y_center := new_height / 2
      let crop_height := H
      let y_start : ℤ := (y_center : ℤ) - ((crop_height / 2 : ℕ) : ℤ)
      { outWidth := new_width, outHeight := (y_start + crop_height) - y_start,
        cropStart := y_start, cropLen := crop_height, scaledLen := new_height }
    else
      { outWidth := new_width, outHeight := new_height, cropStart := 0,
        cropLen := new_height, scaledLen := new_height }

lemma centerCrop_bounds {target scaled : ℕ} (h : target ≤ scaled) :
    0 ≤ ((scaled / 2 : ℕ) : ℤ) - ((target / 2 : ℕ) : ℤ) ∧
    (((scaled / 2 : ℕ) : ℤ) - ((target / 2 : ℕ) : ℤ)) + target ≤ scaled := by
  omega

/-- C5: for positive source dimensions and positive target dimensions, the
scale-then-center-crop transform yields output dimensions exactly the target
`W × H`, and the crop window lies within the scaled frame:
`0 ≤ cropStart` and `cropStart + cropLen ≤ scaledLen`. -/
theorem frameFitter_dims_spec (W H w h : ℕ)
    (hW : 0 < W) (hH : 0 < H) (hw : 0 < w) (hh : 0 < h) :
    (fitFrame W H w h).outWidth = W ∧
    (fitFrame W H w h).outHeight = H ∧
    0 ≤ (fitFrame W H w h).cropStart ∧
    (fitFrame W H w h).cropStart + (fitFrame W H w h).cropLen ≤
      (fitFrame W H w h).scaledLen := by
  have hWq : (0:ℚ) < W := by exact_mod_cast hW
  have hHq : (0:ℚ) < H := by exact_mod_cast hH
  have hwq : (0:ℚ) < w := by exact_mod_cast hw
  have hhq : (0:ℚ) < h := by exact_mod_cast hh
  unfold fitFrame
  by_cases hc : (w : ℚ) / (h : ℚ) > (W : ℚ) / (H : ℚ)
  · rw [if_pos hc]
    -- scaled width is at least the target width
    have hkey : W ≤ ⌊(H : ℚ) * ((w : ℚ) / (h : ℚ))⌋₊ := by
      apply Nat.le_floor
      have : (H : ℚ) * ((W : ℚ) / (H : ℚ)) ≤ (H : ℚ) * ((w : ℚ) / (h : ℚ)) :=
        mul_le_mul_of_nonneg_left (le_of_lt hc) (le_of_lt hHq)
      rw [mul_div_cancel₀ _ (ne_of_gt hHq)] at this
      exact this
    obtain ⟨hb1, hb2⟩ := centerCrop_bounds hkey
    refine ⟨by ring, rfl, hb1, ?_⟩
    simpa using hb2
  · rw [if_neg hc]
    push_neg at hc
    -- scaled height is at least the target height
    have hkey : H ≤ ⌊(W : ℚ) / ((w : ℚ) / (h : ℚ))⌋₊ := by
      apply Nat.le_floor
      rw [le_div_iff₀ (div_pos hwq hhq)]
      calc (H : ℚ) * ((w : ℚ) / (h : ℚ))
          ≤ (H : ℚ) * ((W : ℚ) / (H : ℚ)) :=
            mul_le_mul_of_nonneg_left hc (le_of_lt hHq)
        _ = W := mul_div_cancel₀ _ (ne_of_gt hHq)
    by_cases hc2 : H < ⌊(W : ℚ) / ((w : ℚ) / (h : ℚ))⌋₊
    · rw [if_pos hc2]
      obtain ⟨hb1, hb2⟩ := centerCrop_bounds (le_of_lt hc2)
      refine ⟨rfl, by ring, hb1, ?_⟩
      simpa using hb2
    · rw [if_neg hc2]
      push_neg at hc2
      have heq : ⌊(W : ℚ) / ((w : ℚ) / (h : ℚ))⌋₊ = H := le_antisymm hc2 hkey
      refine ⟨rfl, by rw [heq], le_refl _, by simp⟩

/-- Witness for `frameFitter_dims_spec` at the spec scenario: source
`1920 × 1080`, target `1080 × 1920`. -/
theorem frameFitter_dims_spec_witness :
    (fitFrame 1080 1920 1920 1080).outWidth = 1080 ∧
    (fitFrame 1080 1920 1920 1080).outHeight = 1920 ∧
    0 ≤ (fitFrame 1080 1920 1920 1080).cropStart ∧
    (fitFrame 1080 1920 1920 1080).cropStart +
      (fitFrame 1080 1920 1920 1080).cropLen ≤
      (fitFrame 1080 1920 1920 1080).scaledLen :=
  frameFitter_dims_spec 1080 1920 1920 1080
    (by norm_num) (by norm_num) (by norm_num) (by norm_num)

/-! ## Subtitle text cleanup

Embedding of `WhisperSubtitles._clean_subtitle_text`
(`whisper_subtitles.py`, lines 169-184).

Python source being modelled:
  `text = ' '.join(text.split())`
  `if text: text = text[0].upper() + text[1:]`
  `text = text.replace(' ,', ',')`
  `text = text.replace(' .', '.')`
  `text = text.replace(' !', '!')`
  `text = text.replace(' ?', '?')`

Python strings are modelled as `List Char`; whitespace is Lean's
`Char.isWhitespace` (the ASCII subset of Python's whitespace classes). -/

/-- `str.split()` worker: `cur` holds the current word reversed. -/
def splitAux : List Char → List Char → List (List Char)
  | cur, [] => if cur = [] then [] else [cur.reverse]
  | cur, c :: cs =>
    if c.isWhitespace then
      (if cur = [] then splitAux [] cs else cur.reverse :: splitAux [] cs)
    else splitAux (c :: cur) cs

/-- Python `text.split()` (split on whitespace runs, no empty words). -/
def pySplit (s : List Char) : List (List Char) := splitAux [] s

/-- Python `' '.join(words)`. -/
def joinSpace : List (List Char) → List Char
  | [] => []
  | [w] => w
  | w :: v :: ws => w ++ ' ' :: joinSpace (v :: ws)

/-- `text[0].upper() + text[1:]` guarded by `if text:`. -/
def upperFirst : List Char → List Char
  | [] => []
  | c :: cs => c.toUpper :: cs

/-- Python `text.replace(' ' + p, p)`: a left-to-right, non-overlapping
scan that does not rescan replaced output. -/
def replacePair (p : Char) : List Char → List Char
  | [] => []
  | [c] => [c]
  | c :: d :: rest =>
    if c = ' ' ∧ d = p then p :: replacePair p rest
    else c :: replacePair p (d :: rest)

/-- `WhisperSubtitles._clean_subtitle_text` (lines 169-184). -/
def cleanSubtitleText (text : List Char) : List Char :=
  replacePair '?' (replacePair '!' (replacePair '.' (replacePair ','
    (upperFirst (joinSpace (pySplit text))))))

/-- Python `str.strip()`. -/
def stripChars (s : List Char) : List Char :=
  ((s.dropWhile Char.isWhitespace).reverse.dropWhile Char.isWhitespace).reverse

/-- Python `str.rstrip()`. -/
def rstripChars (s : List Char) : List Char :=
  (s.reverse.dropWhile Char.isWhitespace).reverse

/-- `WhisperSubtitles._is_sentence_end` (lines 165-167):
`word.rstrip().endswith(('.', '!', '?'))`. -/
def isSentenceEnd (word : List Char) : Bool :=
  match (rstripChars word).getLast? with
  | some c => c == '.' || c == '!' || c == '?'
  | none => false

/-- `true` iff `s` contains adjacent characters `a` then `b`. -/
def hasPair (a b : Char) : List Char → Bool
  | c :: d :: rest => (c == a && d == b) || hasPair a b (d :: rest)
  | _ => false

/-- Canonical spacing, position-aware: with `expectWord = true` the scan is at
the start of a word (start of string or just after a separator space), with
`expectWord = false` it is inside or just after a word. Accepts exactly the
strings made of nonempty whitespace-free words joined by single spaces. -/
def canonFrom : Bool → List Char → Bool
  | expectWord, [] => !expectWord
  | expectWord, c :: cs =>
    if c = ' ' then !expectWord && canonFrom true cs
    else !c.isWhitespace && canonFrom false cs

/-- Canonical spacing for a whole string (empty allowed). -/
def canonical (s : List Char) : Bool := s.isEmpty || canonFrom true s

/-! ### Character-level facts -/

lemma char_eq_of_toNat {a b : Char} (h : a.toNat = b.toNat) : a = b :=
  Char.ext (UInt32.ext h)

lemma toUpper_toNat (c : Char) :
    (Char.toUpper c).toNat =
      if 97 ≤ c.toNat ∧ c.toNat ≤ 122 then c.toNat - 32 else c.toNat := by
  unfold Char.toUpper
  by_cases h : c.toNat ≥ 97 ∧ c.toNat ≤ 122
  · rw [if_pos h, if_pos ⟨h.1, h.2⟩]
    have hv : c.toNat - 32 < 55296 := by omega
    unfold Char.ofNat
    rw [dif_pos (Or.inl hv)]
    simp [Char.ofNatAux, Char.toNat, UInt32.toNat]
  · rw [if_neg h, if_neg h]

lemma toUpper_eq_self {c : Char} (h : ¬ (c.toNat ≥ 97 ∧ c.toNat ≤ 122)) :
    Char.toUpper c = c := by
  unfold Char.toUpper
  exact if_neg h

lemma toUpper_idem (c : Char) : (Char.toUpper c).toUpper = Char.toUpper c := by
  by_cases h : c.toNat ≥ 97 ∧ c.toNat ≤ 122
  · apply toUpper_eq_self
    rw [toUpper_toNat, if_pos ⟨h.1, h.2⟩]
    omega
  · rw [toUpper_eq_self h, toUpper_eq_self h]

lemma ws_toNat {c : Char} (h : c.isWhitespace = true) :
    c.toNat = 32 ∨ c.toNat = 9 ∨ c.toNat = 13 ∨ c.toNat = 10 := by
  unfold Char.isWhitespace at h
  simp only [Bool.or_eq_true, decide_eq_true_eq] at h
  rcases h with ((h | h) | h) | h <;>
    [exact Or.inl (by rw [h]; rfl);
     exact Or.inr (Or.inl (by rw [h]; rfl));
     exact Or.inr (Or.inr (Or.inl (by rw [h]; rfl)));
     exact Or.inr (Or.inr (Or.inr (by rw [h]; rfl)))]

lemma not_ws_of_toNat {c : Char}
    (h : c.toNat ≠ 32 ∧ c.toNat ≠ 9 ∧ c.toNat ≠ 13 ∧ c.toNat ≠ 10) :
    c.isWhitespace = false := by
  rcases hb : c.isWhitespace with _ | _
  · rfl
  · rcases ws_toNat hb with h0 | h0 | h0 | h0 <;> tauto

lemma toUpper_not_ws {c : Char} (h : c.isWhitespace = false) :
    (Char.toUpper c).isWhitespace = false := by
  by_cases hr : c.toNat ≥ 97 ∧ c.toNat ≤ 122
  · apply not_ws_of_toNat
    rw [toUpper_toNat, if_pos ⟨hr.1, hr.2⟩]
    omega
  · rw [toUpper_eq_self hr]
    exact h

lemma ne_space_of_not_ws {c : Char} (h : c.isWhitespace = false) : c ≠ ' ' := by
  intro he
  rw [he] at h
  exact absurd h (by decide)

/-! ### Split / join / canonical-spacing facts -/

lemma splitAux_nil (cur : List Char) :
    splitAux cur [] = if cur = [] then [] else [cur.reverse] := rfl

lemma splitAux_cons (cur : List Char) (c : Char) (cs : List Char) :
    splitAux cur (c :: cs) =
      if c.isWhitespace then
        (if cur = [] then splitAux [] cs else cur.reverse :: splitAux [] cs)
      else splitAux (c :: cur) cs := rfl

lemma canonFrom_nil (e : Bool) : canonFrom e [] = !e := rfl

lemma canonFrom_cons (e : Bool) (c : Char) (cs : List Char) :
    canonFrom e (c :: cs) =
      if c = ' ' then !e && canonFrom true cs
      else !c.isWhitespace && canonFrom false cs := rfl

lemma hasPair_cons₂ (a b c d : Char) (rest : List Char) :
    hasPair a b (c :: d :: rest) =
      ((c == a && d == b) || hasPair a b (d :: rest)) := rfl

lemma splitAux_ne_nil (s : List Char) : ∀ cur, cur ≠ [] → splitAux cur s ≠ [] := by
  induction s with
  | nil =>
    intro cur h
    rw [splitAux_nil, if_neg h]
    simp
  | cons c cs ih =>
    intro cur h
    rw [splitAux_cons]
    by_cases hws : c.isWhitespace = true
    · rw [if_pos hws, if_neg h]
      simp
    · rw [if_neg hws]
      exact ih (c :: cur) (by simp)

lemma splitAux_words (s : List Char) :
    ∀ cur, (∀ c ∈ cur, c.isWhitespace = false) →
    ∀ w ∈ splitAux cur s, w ≠ [] ∧ ∀ c ∈ w, c.isWhitespace = false := by
  induction s with
  | nil =>
    intro cur hcur w hw
    rw [splitAux_nil] at hw
    by_cases h : cur = []
    · rw [if_pos h] at hw
      simp at hw
    · rw [if_neg h] at hw
      simp at hw
      subst hw
      refine ⟨by simpa using h, ?_⟩
      intro c hc
      exact hcur c (List.mem_reverse.mp hc)
  | cons c cs ih =>
    intro cur hcur w hw
    rw [splitAux_cons] at hw
    by_cases hws : c.isWhitespace = true
    · rw [if_pos hws] at hw
      by_cases h : cur = []
      · rw [if_pos h] at hw
        exact ih [] (by simp) w hw
      · rw [if_neg h] at hw
        rcases List.mem_cons.mp hw with hw | hw
        · subst hw
          refine ⟨by simpa using h, ?_⟩
          intro d hd
          exact hcur d (List.mem_reverse.mp hd)
        · exact ih [] (by simp) w hw
    · rw [if_neg hws] at hw
      refine ih (c :: cur) ?_ w hw
      intro d hd
      rcases List.mem_cons.mp hd with hd | hd
      · subst hd
        simpa using hws
      · exact hcur d hd

lemma canonFrom_false_append (w : List Char) :
    ∀ r, (∀ c ∈ w, c.isWhitespace = false) →
    canonFrom false r = true → canonFrom false (w ++ r) = true := by
  induction w with
  | nil => intro r _ hr; simpa using hr
  | cons c w' ih =>
    intro r hw hr
    have hc : c.isWhitespace = false := hw c (by simp)
    rw [List.cons_append, canonFrom_cons, if_neg (ne_space_of_not_ws hc), hc]
    simp only [Bool.not_false, Bool.true_and]
    exact ih r (fun d hd => hw d (by simp [hd])) hr

lemma canonFrom_true_append (w : List Char) (r : List Char) (hne : w ≠ [])
    (hw : ∀ c ∈ w, c.isWhitespace = false)
    (hr : canonFrom false r = true) : canonFrom true (w ++ r) = true := by
  match w, hne with
  | c :: w', _ =>
    have hc : c.isWhitespace = false := hw c (by simp)
    rw [List.cons_append, canonFrom_cons, if_neg (ne_space_of_not_ws hc), hc]
    simp only [Bool.not_false, Bool.true_and]
    exact canonFrom_false_append w' r (fun d hd => hw d (by simp [hd])) hr

lemma joinSpace_cons_ne (w : List Char) {l : List (List Char)} (h : l ≠ []) :
    joinSpace (w :: l) = w ++ ' ' :: joinSpace l := by
  match l, h with
  | v :: vs, _ => rfl

lemma joinSpace_canonWord (ws : List (List Char)) (hne : ws ≠ [])
    (hws : ∀ w ∈ ws, w ≠ [] ∧ ∀ c ∈ w, c.isWhitespace = false) :
    canonFrom true (joinSpace ws) = true := by
  induction ws with
  | nil => exact absurd rfl hne
  | cons w l ih =>
    rcases hws w (by simp) with ⟨hwne, hwc⟩
    by_cases hl : l = []
    · subst hl
      have : joinSpace [w] = w ++ [] := by simp [joinSpace]
      rw [this]
      exact canonFrom_true_append w [] hwne hwc rfl
    · rw [joinSpace_cons_ne w hl]
      apply canonFrom_true_append w _ hwne hwc
      rw [canonFrom_cons, if_pos rfl]
      simp only [Bool.not_false, Bool.true_and]
      exact ih hl (fun v hv => hws v (by simp [hv]))

lemma canonical_collapse (s : List Char) :
    canonical (joinSpace (pySplit s)) = true := by
  rcases h : pySplit s with _ | ⟨w, ws⟩
  · rfl
  · have hwords := splitAux_words s [] (by simp)
    rw [← h]
    unfold canonical
    have : canonFrom true (joinSpace (pySplit s)) = true := by
      apply joinSpace_canonWord _ (by rw [h]; simp)
      intro v hv
      exact hwords v hv
    rw [this]
    simp

lemma canonFrom_true_elim {c : Char} {cs : List Char}
    (h : canonFrom true (c :: cs) = true) :
    c ≠ ' ' ∧ c.isWhitespace = false ∧ canonFrom false cs = true := by
  rw [canonFrom_cons] at h
  by_cases hc : c = ' '
  · rw [if_pos hc] at h
    simp at h
  · rw [if_neg hc] at h
    simp only [Bool.and_eq_true, Bool.not_eq_true'] at h
    exact ⟨hc, h.1, h.2⟩

lemma splitAux_join_aux (n : ℕ) :
    ∀ (s cur : List Char), s.length ≤ n → cur ≠ [] →
    canonFrom false s = true →
    joinSpace (splitAux cur s) = cur.reverse ++ s := by
  induction n with
  | zero =>
    intro s cur hlen hcur _
    have : s = [] := List.eq_nil_of_length_eq_zero (Nat.le_zero.mp hlen)
    subst this
    rw [splitAux_nil, if_neg hcur]
    simp [joinSpace]
  | succ n ih =>
    intro s cur hlen hcur hcanon
    match s with
    | [] =>
      rw [splitAux_nil, if_neg hcur]
      simp [joinSpace]
    | c :: cs =>
      by_cases hc : c = ' '
      · subst hc
        rw [canonFrom_cons, if_pos rfl] at hcanon
        simp only [Bool.not_false, Bool.true_and] at hcanon
        -- canonFrom true cs = true, so cs starts with a non-space word char
        match cs, hcanon with
        | d :: ds, hcanon =>
          obtain ⟨hd, hdws, hds⟩ := canonFrom_true_elim hcanon
          rw [splitAux_cons, if_pos (by decide), if_neg hcur]
          rw [splitAux_cons, if_pos rfl,
            if_neg (by rw [hdws]; exact Bool.false_ne_true)]
          have hrec : joinSpace (splitAux [d] ds) = [d].reverse ++ ds := by
            apply ih ds [d] _ (by simp) hds
            simp at hlen
            omega
          rw [joinSpace_cons_ne _ (splitAux_ne_nil ds [d] (by simp)), hrec]
          simp
      · rw [canonFrom_cons, if_neg hc] at hcanon
        simp only [Bool.and_eq_true, Bool.not_eq_true'] at hcanon
        obtain ⟨hws, hrest⟩ := hcanon
        rw [splitAux_cons, if_neg (by rw [hws]; exact Bool.false_ne_true)]
        have hrec : joinSpace (splitAux (c :: cur) cs) = (c :: cur).reverse ++ cs := by
          apply ih cs (c :: cur) _ (by simp) hrest
          simp at hlen
          omega
        rw [hrec]
        simp

/-- `' '.join(x.split())` is the identity on canonically-spaced strings. -/
lemma collapse_of_canonical {s : List Char} (h : canonical s = true) :
    joinSpace (pySplit s) = s := by
  match s with
  | [] => rfl
  | c :: cs =>
    unfold canonical at h
    simp only [List.isEmpty_cons, Bool.false_or] at h
    obtain ⟨_, hws, hrest⟩ := canonFrom_true_elim h
    unfold pySplit
    rw [splitAux_cons, if_neg (by rw [hws]; exact Bool.false_ne_true)]
    have := splitAux_join_aux cs.length cs [c] (le_refl _) (by simp) hrest
    rw [this]
    simp

lemma replacePair_cons₂ (p c d : Char) (rest : List Char) :
    replacePair p (c :: d :: rest) =
      if c = ' ' ∧ d = p then p :: replacePair p rest
      else c :: replacePair p (d :: rest) := rfl

lemma replacePair_head {p c : Char} (cs : List Char) (h : c ≠ ' ') :
    replacePair p (c :: cs) = c :: replacePair p cs := by
  match cs with
  | [] => rfl
  | d :: rest =>
    rw [replacePair_cons₂, if_neg (by tauto)]

lemma replacePair_canon_aux {p : Char} (hp : p.isWhitespace = false) (n : ℕ) :
    ∀ (s : List Char) (e : Bool), s.length ≤ n → canonFrom e s = true →
    canonFrom e (replacePair p s) = true := by
  induction n with
  | zero =>
    intro s e hlen h
    have : s = [] := List.eq_nil_of_length_eq_zero (Nat.le_zero.mp hlen)
    subst this
    exact h
  | succ n ih =>
    intro s e hlen h
    match s with
    | [] => exact h
    | [c] => exact h
    | c :: d :: rest =>
      by_cases hc : c = ' '
      · subst hc
        rw [canonFrom_cons, if_pos rfl] at h
        simp only [Bool.and_eq_true, Bool.not_eq_true'] at h
        obtain ⟨he, hrest⟩ := h
        obtain ⟨hd, hdws, hds⟩ := canonFrom_true_elim hrest
        by_cases hdp : d = p
        · subst hdp
          unfold replacePair
          rw [if_pos ⟨rfl, rfl⟩]
          rw [canonFrom_cons, if_neg (ne_space_of_not_ws hp), hp]
          simp only [Bool.not_false, Bool.true_and]
          apply ih rest false _ hds
          simp at hlen
          omega
        · unfold replacePair
          rw [if_neg (by tauto)]
          rw [canonFrom_cons, if_pos rfl]
          have : canonFrom true (replacePair p (d :: rest)) = true := by
            apply ih (d :: rest) true _ hrest
            simp at hlen ⊢
            omega
          rw [this, he]
          simp
      · rw [canonFrom_cons, if_neg hc] at h
        simp only [Bool.and_eq_true, Bool.not_eq_true'] at h
        obtain ⟨hws, hrest⟩ := h
        unfold replacePair
        rw [if_neg (by tauto)]
        rw [canonFrom_cons, if_neg hc, hws]
        simp only [Bool.not_false, Bool.true_and]
        apply ih (d :: rest) false _ hrest
        simp at hlen ⊢
        omega

lemma replacePair_canon {p : Char} (hp : p.isWhitespace = false)
    {s : List Char} {e : Bool} (h : canonFrom e s = true) :
    canonFrom e (replacePair p s) = true :=
  replacePair_canon_aux hp s.length s e (le_refl _) h

lemma canonical_replacePair {p : Char} (hp : p.isWhitespace = false)
    {s : List Char} (h : canonical s = true) :
    canonical (replacePair p s) = true := by
  match s with
  | [] => exact h
  | c :: cs =>
    unfold canonical at h ⊢
    simp only [List.isEmpty_cons, Bool.false_or] at h
    have := replacePair_canon hp (e := true) h
    rw [this]
    simp

lemma canonFrom_no_double_space :
    ∀ (s : List Char) (e : Bool), canonFrom e s = true →
    hasPair ' ' ' ' s = false := by
  intro s
  induction s with
  | nil => intro e _; rfl
  | cons c cs ih =>
    intro e h
    match cs, h with
    | [], _ => rfl
    | d :: rest, h =>
      rw [hasPair_cons₂]
      by_cases hc : c = ' '
      · subst hc
        rw [canonFrom_cons, if_pos rfl] at h
        simp only [Bool.and_eq_true] at h
        obtain ⟨hd, hdws, _⟩ := canonFrom_true_elim h.2
        rw [ih true h.2]
        simp [hd]
      · rw [canonFrom_cons, if_neg hc] at h
        simp only [Bool.and_eq_true] at h
        rw [ih false h.2]
        simp [hc]

lemma canonical_no_double {s : List Char} (h : canonical s = true) :
    hasPair ' ' ' ' s = false := by
  match s with
  | [] => rfl
  | c :: cs =>
    unfold canonical at h
    simp only [List.isEmpty_cons, Bool.false_or] at h
    exact canonFrom_no_double_space (c :: cs) true h

lemma hasPair_tail {a b c : Char} {cs : List Char}
    (h : hasPair a b (c :: cs) = false) : hasPair a b cs = false := by
  match cs with
  | [] => rfl
  | d :: ds =>
    rw [hasPair_cons₂] at h
    exact (Bool.or_eq_false_iff.mp h).2

lemma hasPair_head {a b c d : Char} {rest : List Char}
    (h : hasPair a b (c :: d :: rest) = false) : (c == a && d == b) = false := by
  rw [hasPair_cons₂] at h
  exact (Bool.or_eq_false_iff.mp h).1

lemma hasPair_cons_false {a b c : Char} {l : List Char}
    (h1 : ∀ x xs, l = x :: xs → (c == a && x == b) = false)
    (h2 : hasPair a b l = false) : hasPair a b (c :: l) = false := by
  match l with
  | [] => rfl
  | x :: xs =>
    rw [hasPair_cons₂, h1 x xs rfl, h2]
    rfl

lemma replacePair_head_or (p d : Char) (rest : List Char) :
    (∃ t, replacePair p (d :: rest) = d :: t) ∨
    (d = ' ' ∧ ∃ t, replacePair p (d :: rest) = p :: t) := by
  match rest with
  | [] => exact Or.inl ⟨[], rfl⟩
  | e :: rest' =>
    by_cases h : d = ' ' ∧ e = p
    · right
      refine ⟨h.1, replacePair p rest', ?_⟩
      rw [replacePair_cons₂, if_pos h]
    · left
      refine ⟨replacePair p (e :: rest'), ?_⟩
      rw [replacePair_cons₂, if_neg h]

lemma replacePair_no_pair_self_aux {p : Char} (hp : p ≠ ' ') (n : ℕ) :
    ∀ s : List Char, s.length ≤ n → hasPair ' ' ' ' s = false →
    hasPair ' ' p (replacePair p s) = false := by
  induction n with
  | zero =>
    intro s hlen _
    have : s = [] := List.eq_nil_of_length_eq_zero (Nat.le_zero.mp hlen)
    subst this
    rfl
  | succ n ih =>
    intro s hlen hnd
    match s with
    | [] => rfl
    | [c] => rfl
    | c :: d :: rest =>
      by_cases hm : c = ' ' ∧ d = p
      · rw [replacePair_cons₂, if_pos hm]
        apply hasPair_cons_false
        · intro x xs _
          simp [hp]
        · apply ih rest _ (hasPair_tail (hasPair_tail hnd))
          simp at hlen
          omega
      · rw [replacePair_cons₂, if_neg hm]
        have hrec : hasPair ' ' p (replacePair p (d :: rest)) = false := by
          apply ih (d :: rest) _ (hasPair_tail hnd)
          simp at hlen ⊢
          omega
        apply hasPair_cons_false _ hrec
        intro x xs hx
        rcases replacePair_head_or p d rest with ⟨t, ht⟩ | ⟨hd, t, ht⟩
        · rw [ht] at hx
          injection hx with hx1 _
          subst hx1
          -- pair (c, d) is not (' ', p) since the match failed
          by_cases hc : c = ' '
          · simp only [hc, beq_self_eq_true, Bool.true_and]
            have : d ≠ p := fun hdp => hm ⟨hc, hdp⟩
            simp [this]
          · simp [hc]
        · rw [ht] at hx
          injection hx with hx1 _
          subst hx1
          -- here d = ' ', so c ≠ ' ' because s has no double space
          have hcd := hasPair_head hnd
          rw [hd] at hcd
          simp only [beq_self_eq_true, Bool.and_true] at hcd
          simp [hcd]

lemma replacePair_no_pair_self {p : Char} (hp : p ≠ ' ') {s : List Char}
    (hnd : hasPair ' ' ' ' s = false) :
    hasPair ' ' p (replacePair p s) = false :=
  replacePair_no_pair_self_aux hp s.length s (le_refl _) hnd

lemma replacePair_keep_aux {p q : Char} (hp : p ≠ ' ') (hq : q ≠ p) (n : ℕ) :
    ∀ s : List Char, s.length ≤ n → hasPair ' ' q s = false →
    hasPair ' ' ' ' s = false →
    hasPair ' ' q (replacePair p s) = false := by
  induction n with
  | zero =>
    intro s hlen _ _
    have : s = [] := List.eq_nil_of_length_eq_zero (Nat.le_zero.mp hlen)
    subst this
    rfl
  | succ n ih =>
    intro s hlen hnq hnd
    match s with
    | [] => rfl
    | [c] => rfl
    | c :: d :: rest =>
      by_cases hm : c = ' ' ∧ d = p
      · rw [replacePair_cons₂, if_pos hm]
        apply hasPair_cons_false
        · intro x xs _
          simp [hp]
        · apply ih rest _ (hasPair_tail (hasPair_tail hnq))
            (hasPair_tail (hasPair_tail hnd))
          simp at hlen
          omega
      · rw [replacePair_cons₂, if_neg hm]
        have hrec : hasPair ' ' q (replacePair p (d :: rest)) = false := by
          apply ih (d :: rest) _ (hasPair_tail hnq) (hasPair_tail hnd)
          simp at hlen ⊢
          omega
        apply hasPair_cons_false _ hrec
        intro x xs hx
        rcases replacePair_head_or p d rest with ⟨t, ht⟩ | ⟨hd, t, ht⟩
        · rw [ht] at hx
          injection hx with hx1 _
          subst hx1
          -- pair (c, d) was already in s, where no (' ', q) pair exists
          exact hasPair_head hnq
        · rw [ht] at hx
          injection hx with hx1 _
          subst hx1
          -- here d = ' ', so c ≠ ' ' because s has no double space
          have hcd := hasPair_head hnd
          rw [hd] at hcd
          simp only [beq_self_eq_true, Bool.and_true] at hcd
          simp [hcd]

lemma replacePair_keep {p q : Char} (hp : p ≠ ' ') (hq : q ≠ p) {s : List Char}
    (hnq : hasPair ' ' q s = false) (hnd : hasPair ' ' ' ' s = false) :
    hasPair ' ' q (replacePair p s) = false :=
  replacePair_keep_aux hp hq s.length s (le_refl _) hnq hnd

lemma replacePair_id {p : Char} :
    ∀ {s : List Char}, hasPair ' ' p s = false → replacePair p s = s := by
  intro s
  induction s with
  | nil => intro _; rfl
  | cons c cs ih =>
    intro h
    match cs, h, @ih with
    | [], _, _ => rfl
    | d :: rest, h, ih =>
      have hcd := hasPair_head h
      rw [replacePair_cons₂, if_neg ?_]
      · rw [ih (hasPair_tail h)]
      · intro hm
        rw [hm.1, hm.2] at hcd
        simp at hcd

lemma upperFirst_canonical {s : List Char} (h : canonical s = true) :
    canonical (upperFirst s) = true := by
  match s with
  | [] => rfl
  | c :: cs =>
    unfold canonical at h ⊢
    simp only [List.isEmpty_cons, Bool.false_or] at h ⊢
    obtain ⟨_, hws, hrest⟩ := canonFrom_true_elim h
    show canonFrom true (c.toUpper :: cs) = true
    rw [canonFrom_cons,
      if_neg (ne_space_of_not_ws (toUpper_not_ws hws)), toUpper_not_ws hws]
    simp only [Bool.not_false, Bool.true_and]
    exact hrest

/-- The cleaned text is canonically spaced and has no space before any of
`,`, `.`, `!`, `?`. -/
lemma clean_steps (s : List Char) :
    canonical (cleanSubtitleText s) = true ∧
    hasPair ' ' ',' (cleanSubtitleText s) = false ∧
    hasPair ' ' '.' (cleanSubtitleText s) = false ∧
    hasPair ' ' '!' (cleanSubtitleText s) = false ∧
    hasPair ' ' '?' (cleanSubtitleText s) = false := by
  have hu : canonical (upperFirst (joinSpace (pySplit s))) = true :=
    upperFirst_canonical (canonical_collapse s)
  set u := upperFirst (joinSpace (pySplit s)) with hu_def
  set t1 := replacePair ',' u with ht1
  set t2 := replacePair '.' t1 with ht2
  set t3 := replacePair '!' t2 with ht3
  have hclean : cleanSubtitleText s = replacePair '?' t3 := rfl
  have hc1 : canonical t1 = true := canonical_replacePair (by decide) hu
  have hc2 : canonical t2 = true := canonical_replacePair (by decide) hc1
  have hc3 : canonical t3 = true := canonical_replacePair (by decide) hc2
  have hc4 : canonical (replacePair '?' t3) = true :=
    canonical_replacePair (by decide) hc3
  have h1 : hasPair ' ' ',' t1 = false :=
    replacePair_no_pair_self (by decide) (canonical_no_double hu)
  have h2 : hasPair ' ' '.' t2 = false :=
    replacePair_no_pair_self (by decide) (canonical_no_double hc1)
  have h12 : hasPair ' ' ',' t2 = false :=
    replacePair_keep (by decide) (by decide) h1 (canonical_no_double hc1)
  have h3 : hasPair ' ' '!' t3 = false :=
    replacePair_no_pair_self (by decide) (canonical_no_double hc2)
  have h13 : hasPair ' ' ',' t3 = false :=
    replacePair_keep (by decide) (by decide) h12 (canonical_no_double hc2)
  have h23 : hasPair ' ' '.' t3 = false :=
    replacePair_keep (by decide) (by decide) h2 (canonical_no_double hc2)
  have h4 : hasPair ' ' '?' (replacePair '?' t3) = false :=
    replacePair_no_pair_self (by decide) (canonical_no_double hc3)
  have h14 : hasPair ' ' ',' (replacePair '?' t3) = false :=
    replacePair_keep (by decide) (by decide) h13 (canonical_no_double hc3)
  have h24 : hasPair ' ' '.' (replacePair '?' t3) = false :=
    replacePair_keep (by decide) (by decide) h23 (canonical_no_double hc3)
  have h34 : hasPair ' ' '!' (replacePair '?' t3) = false :=
    replacePair_keep (by decide) (by decide) h3 (canonical_no_double hc3)
  rw [hclean]
  exact ⟨hc4, h14, h24, h34, h4⟩

/-- The first character of the cleaned text is fixed by `Char.toUpper`. -/
lemma clean_head_fix (s : List Char) :
    ∀ c r, cleanSubtitleText s = c :: r → c.toUpper = c := by
  intro c r hcr
  rcases hcol : joinSpace (pySplit s) with _ | ⟨c0, cs0⟩
  · have : cleanSubtitleText s = [] := by
      unfold cleanSubtitleText
      rw [hcol]
      rfl
    rw [this] at hcr
    exact absurd hcr (by simp)
  · have hu : canonical (upperFirst (joinSpace (pySplit s))) = true :=
      upperFirst_canonical (canonical_collapse s)
    rw [hcol] at hu
    have hu' : upperFirst (c0 :: cs0) = c0.toUpper :: cs0 := rfl
    rw [hu'] at hu
    unfold canonical at hu
    simp only [List.isEmpty_cons, Bool.false_or] at hu
    obtain ⟨hne, _, _⟩ := canonFrom_true_elim hu
    have hchain : cleanSubtitleText s =
        c0.toUpper :: (replacePair '?' (replacePair '!' (replacePair '.'
          (replacePair ',' cs0)))) := by
      unfold cleanSubtitleText
      rw [hcol, hu']
      rw [replacePair_head _ hne, replacePair_head _ hne,
        replacePair_head _ hne, replacePair_head _ hne]
    rw [hchain] at hcr
    injection hcr with hc1 _
    rw [← hc1]
    exact toUpper_idem c0

/-- Counterexample to C6 as stated: for the input "1a" the cleaned text is
"1a", which is non-empty but whose first character `'1'` is not an uppercase
character. -/
theorem cleanSubtitle_first_char_not_upper :
    cleanSubtitleText ['1', 'a'] = ['1', 'a'] ∧ '1'.isUpper = false := by
  constructor
  · decide
  · decide

/-- C6 (amended): cleaned subtitle text never contains a space immediately
before `,`, `.`, `!` or `?`, and its first character (when the result is
non-empty) is fixed by uppercasing, i.e. it is never a lowercase letter; the
cleanup applies, in order: collapse whitespace runs to single spaces, uppercase
the first character, remove spaces before `,`, `.`, `!`, `?`. -/
theorem cleanSubtitle_spec (s : List Char) :
    hasPair ' ' ',' (cleanSubtitleText s) = false ∧
    hasPair ' ' '.' (cleanSubtitleText s) = false ∧
    hasPair ' ' '!' (cleanSubtitleText s) = false ∧
    hasPair ' ' '?' (cleanSubtitleText s) = false ∧
    (∀ c r, cleanSubtitleText s = c :: r → c.toUpper = c) := by
  obtain ⟨_, h1, h2, h3, h4⟩ := clean_steps s
  exact ⟨h1, h2, h3, h4, clean_head_fix s⟩

/-- Witness for `cleanSubtitle_spec` on the concrete input "hi !". -/
theorem cleanSubtitle_spec_witness :
    hasPair ' ' ',' (cleanSubtitleText ['h', 'i', ' ', '!']) = false ∧
    hasPair ' ' '!' (cleanSubtitleText ['h', 'i', ' ', '!']) = false ∧
    'H'.toUpper = 'H' := by
  obtain ⟨h1, _, h3, _, h5⟩ := cleanSubtitle_spec ['h', 'i', ' ', '!']
  exact ⟨h1, h3, h5 'H' ['i', '!'] (by decide)⟩

/-- C9: the subtitle text cleanup is idempotent. -/
theorem cleanSubtitle_idempotent (s : List Char) :
    cleanSubtitleText (cleanSubtitleText s) = cleanSubtitleText s := by
  obtain ⟨hcanon, h1, h2, h3, h4⟩ := clean_steps s
  have hcollapse : joinSpace (pySplit (cleanSubtitleText s)) = cleanSubtitleText s :=
    collapse_of_canonical hcanon
  have hupper : upperFirst (cleanSubtitleText s) = cleanSubtitleText s := by
    rcases hc : cleanSubtitleText s with _ | ⟨c, r⟩
    · rfl
    · show c.toUpper :: r = c :: r
      rw [clean_head_fix s c r hc]
  have hstep : cleanSubtitleText (cleanSubtitleText s) =
      replacePair '?' (replacePair '!' (replacePair '.' (replacePair ','
        (upperFirst (joinSpace (pySplit (cleanSubtitleText s))))))) := rfl
  rw [hstep, hcollapse, hupper, replacePair_id h1, replacePair_id h2,
    replacePair_id h3, replacePair_id h4]

/-! ## Segment Timer

Embedding of `WhisperSubtitles._create_subtitle_segments`
(`whisper_subtitles.py`, lines 72-163).

Each `word_info` dictionary is a `Word`; each transcription segment from the
Whisper result is a `TranscriptionSegment`; each emitted subtitle dictionary
is a `Seg`.  `maxW` is `max_words_per_segment`; `maxD` is
`PipelineConfig.MAX_SUBTITLE_DURATION`.
-/

structure Word where
  /-- `word_info.get('word', '')` (raw, unstripped) -/
  text : List Char
  /-- `word_info.get('start', 0)` -/
  start : ℚ
  /-- `word_info.get('end', 0)` -/
  endT : ℚ
  deriving Repr

structure Seg where
  /-- `'text'` field of the emitted dictionary -/
  text : List Char
  /-- `'start'` field -/
  start : ℚ
  /-- `'end'` field -/
  endT : ℚ
  /-- `'duration'` field (stored as `end - start` by the code) -/
  duration : ℚ
  /-- ghost field recording the buffered words (`current_segment`) this
  segment was built from; `[]` for fallback segments -/
  words : List Word
  deriving Repr

/-- Building the emitted dictionary (lines 130-138 / 146-157):
`segment_text = self._clean_subtitle_text(' '.join(current_segment))` where
`current_segment` holds the stripped word texts. -/
def mkSeg (buf : List Word) (s e : ℚ) : Seg :=
  { text := cleanSubtitleText (joinSpace (buf.map (fun w => stripChars w.text))),
    start := s, endT := e, duration := e - s, words := buf }

@[simp] lemma mkSeg_text (buf : List Word) (s e : ℚ) :
    (mkSeg buf s e).text =
      cleanSubtitleText (joinSpace (buf.map (fun w => stripChars w.text))) := rfl

@[simp] lemma mkSeg_start (buf : List Word) (s e : ℚ) :
    (mkSeg buf s e).start = s := rfl

@[simp] lemma mkSeg_endT (buf : List Word) (s e : ℚ) :
    (mkSeg buf s e).endT = e := rfl

@[simp] lemma mkSeg_duration (buf : List Word) (s e : ℚ) :
    (mkSeg buf s e).duration = e - s := rfl

@[simp] lemma mkSeg_words (buf : List Word) (s e : ℚ) :
    (mkSeg buf s e).words = buf := rfl

/-- The per-word loop of lines 107-142.  Arguments: remaining words,
`current_segment` buffer (as `Word`s), `current_start`.  Returns the emitted
segments, the final buffer and the final `current_start`. -/
def segLoop (maxW : ℕ) (maxD : ℚ) :
    List Word → List Word → Option ℚ → List Seg × List Word × Option ℚ
  | [], buf, st => ([], buf, st)
  | w :: rest, buf, st =>
    -- `word = word_info.get('word', '').strip(); if not word: continue`
    if stripChars w.text = [] then segLoop maxW maxD rest buf st
    else
      -- `if current_start is None: current_start = start_time`;
      -- `current_segment.append(word)`; then `should_end_segment` checks
      -- `len(current_segment) >= max_words_per_segment or
      --  self._is_sentence_end(word) or
      --  (end_time - current_start) > MAX_SUBTITLE_DURATION`
      if maxW ≤ (buf ++ [w]).length ∨ isSentenceEnd (stripChars w.text) = true ∨
          maxD < w.endT - st.getD w.start then
        (mkSeg (buf ++ [w]) (st.getD w.start) w.endT ::
            (segLoop maxW maxD rest [] none).1,
          (segLoop maxW maxD rest [] none).2)
      else segLoop maxW maxD rest (buf ++ [w]) (some (st.getD w.start))

/-- Word-level processing of one transcription segment (lines 104-157),
including the final flush of lines 145-157.  The flush end time is
`words[-1].get('end', current_start + 2.0)`: the end of the **last word of the
whole list** (not the last buffered word); the `current_start + 2.0` default
applies only when the `'end'` key is missing, which cannot happen in this
typed model (kept for the impossible empty-list case). -/
def processWords (maxW : ℕ) (maxD : ℚ) (words : List Word) : List Seg :=
  match segLoop maxW maxD words [] none with
  | (segs, [], _) => segs
  | (segs, _, none) => segs
  | (segs, b :: bs, some cs) =>
    segs ++ [mkSeg (b :: bs) cs
      (match words.getLast? with
       | some wl => wl.endT
       | none => cs + 2)]

structure TranscriptionSegment where
  /-- `segment.get('text', '')` -/
  text : List Char
  /-- `segment.get('start', 0)` -/
  start : ℚ
  /-- `segment.get('end', 0)` -/
  endT : ℚ
  /-- `segment.get('words', [])` -/
  words : List Word
  deriving Repr

/-- `WhisperSubtitles._create_subtitle_segments` (lines 83-159): per
transcription segment, fall back to segment-level timing when there are no
word-level timestamps (lines 90-101), else run the word loop. -/
def createSubtitleSegments (maxW : ℕ) (maxD : ℚ)
    (segments : List TranscriptionSegment) : List Seg :=
  segments.flatMap fun seg =>
    match seg.words with
    | [] =>
      if stripChars seg.text = [] then []
      else [{ text := cleanSubtitleText (stripChars seg.text), start := seg.start,
              endT := seg.endT, duration := seg.endT - seg.start, words := [] }]
    | _ :: _ => processWords maxW maxD seg.words

lemma segLoop_nil (maxW : ℕ) (maxD : ℚ) (buf : List Word) (st : Option ℚ) :
    segLoop maxW maxD [] buf st = ([], buf, st) := rfl

lemma segLoop_cons (maxW : ℕ) (maxD : ℚ) (w : Word) (rest buf : List Word)
    (st : Option ℚ) :
    segLoop maxW maxD (w :: rest) buf st =
      if stripChars w.text = [] then segLoop maxW maxD rest buf st
      else
        if maxW ≤ (buf ++ [w]).length ∨ isSentenceEnd (stripChars w.text) = true ∨
            maxD < w.endT - st.getD w.start then
          (mkSeg (buf ++ [w]) (st.getD w.start) w.endT ::
              (segLoop maxW maxD rest [] none).1,
            (segLoop maxW maxD rest [] none).2)
        else segLoop maxW maxD rest (buf ++ [w]) (some (st.getD w.start)) := rfl

lemma processWords_eq (maxW : ℕ) (maxD : ℚ) (ws : List Word) :
    processWords maxW maxD ws =
      (segLoop maxW maxD ws [] none).1 ++
      (match (segLoop maxW maxD ws [] none).2.1,
             (segLoop maxW maxD ws [] none).2.2 with
       | [], _ => []
       | _ :: _, none => []
       | b :: bs, some cs =>
         [mkSeg (b :: bs) cs
           (match ws.getLast? with
            | some wl => wl.endT
            | none => cs + 2)]) := by
  unfold processWords
  rcases segLoop maxW maxD ws [] none with ⟨segs, bufF, stF⟩
  rcases bufF with _ | ⟨b, bs⟩
  · simp
  · rcases stF with _ | cs
    · simp
    · simp

/-- Loop invariant: if the incoming buffer is strictly below the word cap,
every emitted segment stays at or below the cap and the final buffer stays
strictly below it. -/
lemma segLoop_wordCount (maxW : ℕ) (maxD : ℚ) :
    ∀ (ws buf : List Word) (st : Option ℚ), buf.length < maxW →
    (∀ seg ∈ (segLoop maxW maxD ws buf st).1, seg.words.length ≤ maxW) ∧
    (segLoop maxW maxD ws buf st).2.1.length < maxW := by
  intro ws
  induction ws with
  | nil =>
    intro buf st hbuf
    rw [segLoop_nil]
    exact ⟨by simp, hbuf⟩
  | cons w rest ih =>
    intro buf st hbuf
    rw [segLoop_cons]
    by_cases hskip : stripChars w.text = []
    · rw [if_pos hskip]
      exact ih buf st hbuf
    · rw [if_neg hskip]
      by_cases hclose : maxW ≤ (buf ++ [w]).length ∨
          isSentenceEnd (stripChars w.text) = true ∨ maxD < w.endT - st.getD w.start
      · rw [if_pos hclose]
        have h0 : (0:ℕ) < maxW := Nat.lt_of_le_of_lt (Nat.zero_le _) hbuf
        obtain ⟨iha, ihb⟩ := ih [] none (by simpa using h0)
        refine ⟨?_, ihb⟩
        intro seg hseg
        rcases List.mem_cons.mp hseg with h | h
        · subst h
          show (buf ++ [w]).length ≤ maxW
          simp only [List.length_append, List.length_singleton]
          omega
        · exact iha seg h
      · rw [if_neg hclose]
        apply ih
        push_neg at hclose
        have := hclose.1
        simp only [List.length_append, List.length_singleton] at this
        simp only [List.length_append, List.length_singleton]
        omega

/-- Loop invariant for start-time monotonicity, for inputs whose word start
times are non-decreasing: emitted starts are pairwise non-decreasing; they are
bounded below by the incoming `current_start` and above by the final
`current_start`; and every emitted or final start is either the incoming one
or some input word's start. -/
lemma segLoop_mono (maxW : ℕ) (maxD : ℚ) :
    ∀ (ws buf : List Word) (st : Option ℚ),
    ((ws.map Word.start).Sorted (· ≤ ·)) →
    (∀ s, st = some s → ∀ w ∈ ws, s ≤ w.start) →
    (((segLoop maxW maxD ws buf st).1.map Seg.start).Sorted (· ≤ ·)) ∧
    (∀ s, st = some s → ∀ seg ∈ (segLoop maxW maxD ws buf st).1, s ≤ seg.start) ∧
    (∀ seg ∈ (segLoop maxW maxD ws buf st).1,
      st = some seg.start ∨ ∃ w ∈ ws, seg.start = w.start) ∧
    (∀ s', (segLoop maxW maxD ws buf st).2.2 = some s' →
      (∀ seg ∈ (segLoop maxW maxD ws buf st).1, seg.start ≤ s') ∧
      (st = some s' ∨ ∃ w ∈ ws, s' = w.start)) := by
  intro ws
  induction ws with
  | nil =>
    intro buf st _ _
    rw [segLoop_nil]
    exact ⟨by simp, by simp, by simp, fun s' hs' => ⟨by simp, Or.inl hs'⟩⟩
  | cons w rest ih =>
    intro buf st hsorted hst
    rw [List.map_cons, List.sorted_cons] at hsorted
    obtain ⟨hw_le, hsorted'⟩ := hsorted
    rw [segLoop_cons]
    by_cases hskip : stripChars w.text = []
    · rw [if_pos hskip]
      obtain ⟨A, B, C, D⟩ := ih buf st hsorted'
        (fun s hs w' hw' => hst s hs w' (List.mem_cons_of_mem _ hw'))
      refine ⟨A, B, ?_, ?_⟩
      · intro seg hseg
        rcases C seg hseg with h | ⟨w', hw', h⟩
        · exact Or.inl h
        · exact Or.inr ⟨w', List.mem_cons_of_mem _ hw', h⟩
      · intro s' hs'
        obtain ⟨D1, D2⟩ := D s' hs'
        refine ⟨D1, ?_⟩
        rcases D2 with h | ⟨w', hw', h⟩
        · exact Or.inl h
        · exact Or.inr ⟨w', List.mem_cons_of_mem _ hw', h⟩
    · rw [if_neg hskip]
      have hs0w : st.getD w.start ≤ w.start := by
        cases st with
        | none => exact le_refl _
        | some s => simpa using hst s rfl w (List.mem_cons_self w rest)
      have hs0rest : ∀ w' ∈ rest, st.getD w.start ≤ w'.start := by
        intro w' hw'
        exact le_trans hs0w (hw_le w'.start (List.mem_map_of_mem Word.start hw'))
      by_cases hclose : maxW ≤ (buf ++ [w]).length ∨
          isSentenceEnd (stripChars w.text) = true ∨ maxD < w.endT - st.getD w.start
      · rw [if_pos hclose]
        obtain ⟨A_r, B_r, C_r, D_r⟩ := ih [] none hsorted' (by intro s hs; cases hs)
        have hRstart : ∀ seg ∈ (segLoop maxW maxD rest [] none).1,
            st.getD w.start ≤ seg.start := by
          intro seg hseg
          rcases C_r seg hseg with h | ⟨w', hw', h⟩
          · cases h
          · rw [h]
            exact hs0rest w' hw'
        refine ⟨?_, ?_, ?_, ?_⟩
        · show ((mkSeg (buf ++ [w]) (st.getD w.start) w.endT ::
              (segLoop maxW maxD rest [] none).1).map Seg.start).Sorted (· ≤ ·)
          rw [List.map_cons, List.sorted_cons]
          constructor
          · intro b hb
            obtain ⟨seg, hseg, rfl⟩ := List.mem_map.mp hb
            exact hRstart seg hseg
          · exact A_r
        · intro s hs seg hseg
          have hs0 : st.getD w.start = s := by rw [hs]; rfl
          rcases List.mem_cons.mp hseg with rfl | h
          · exact le_of_eq hs0.symm
          · rw [← hs0]
            exact hRstart seg h
        · intro seg hseg
          rcases List.mem_cons.mp hseg with rfl | h
          · cases st with
            | some s => exact Or.inl rfl
            | none => exact Or.inr ⟨w, List.mem_cons_self w rest, rfl⟩
          · rcases C_r seg h with hnone | ⟨w', hw', h'⟩
            · cases hnone
            · exact Or.inr ⟨w', List.mem_cons_of_mem _ hw', h'⟩
        · intro s' hs'
          obtain ⟨D1, D2⟩ := D_r s' hs'
          rcases D2 with hnone | ⟨w', hw', h'⟩
          · cases hnone
          · refine ⟨?_, Or.inr ⟨w', List.mem_cons_of_mem _ hw', h'⟩⟩
            intro seg hseg
            rcases List.mem_cons.mp hseg with rfl | h
            · show st.getD w.start ≤ s'
              rw [h']
              exact hs0rest w' hw'
            · exact D1 seg h
      · rw [if_neg hclose]
        obtain ⟨A_r, B_r, C_r, D_r⟩ := ih (buf ++ [w]) (some (st.getD w.start)) hsorted'
          (by
            intro s hs w' hw'
            injection hs with h
            rw [← h]
            exact hs0rest w' hw')
        refine ⟨A_r, ?_, ?_, ?_⟩
        · intro s hs seg hseg
          have hs0 : st.getD w.start = s := by rw [hs]; rfl
          rw [← hs0]
          exact B_r (st.getD w.start) rfl seg hseg
        · intro seg hseg
          rcases C_r seg hseg with h | ⟨w', hw', h'⟩
          · injection h with h
            cases st with
            | some s =>
              have h2 : s = seg.start := h
              exact Or.inl (by rw [h2])
            | none =>
              have h2 : w.start = seg.start := h
              exact Or.inr ⟨w, List.mem_cons_self w rest, h2.symm⟩
          · exact Or.inr ⟨w', List.mem_cons_of_mem _ hw', h'⟩
        · intro s' hs'
          obtain ⟨D1, D2⟩ := D_r s' hs'
          refine ⟨D1, ?_⟩
          rcases D2 with h | ⟨w', hw', h'⟩
          · injection h with h
            cases st with
            | some s =>
              have h2 : s = s' := h
              exact Or.inl (by rw [h2])
            | none =>
              have h2 : w.start = s' := h
              exact Or.inr ⟨w, List.mem_cons_self w rest, h2.symm⟩
          · exact Or.inr ⟨w', List.mem_cons_of_mem _ hw', h'⟩

/-- Either there is no final flush (lines 145-157 emit nothing) and the output
is exactly the loop output, or the final buffer is non-empty with a
`current_start`, and one flushed segment is appended whose end time comes from
`words[-1]`. -/
lemma processWords_flush_cases (maxW : ℕ) (maxD : ℚ) (ws : List Word) :
    (((segLoop maxW maxD ws [] none).2.1 = [] ∨
      (segLoop maxW maxD ws [] none).2.2 = none) ∧
     processWords maxW maxD ws = (segLoop maxW maxD ws [] none).1) ∨
    ∃ b bs cs, (segLoop maxW maxD ws [] none).2.1 = b :: bs ∧
      (segLoop maxW maxD ws [] none).2.2 = some cs ∧
      processWords maxW maxD ws = (segLoop maxW maxD ws [] none).1 ++
        [mkSeg (b :: bs) cs
          (match ws.getLast? with
           | some wl => wl.endT
           | none => cs + 2)] := by
  rw [processWords_eq]
  split
  · rename_i heq
    exact Or.inl ⟨Or.inl heq, by simp⟩
  · rename_i heq1 heq2
    exact Or.inl ⟨Or.inr heq2, by simp⟩
  · rename_i b bs cs heq1 heq2
    exact Or.inr ⟨b, bs, cs, heq1, heq2, rfl⟩

/-- Counterexample to C2 as stated: for the (unordered) word input
`[("a.", 10, 10), ("b.", 0, 0)]` with `max_words_per_segment = 3`, the code
emits two sentence-closed segments with start times `10` then `0`, which are
not non-decreasing. -/
theorem segmentTimer_starts_not_monotone :
    (processWords 3 1 [⟨['a', '.'], 10, 10⟩, ⟨['b', '.'], 0, 0⟩]).map Seg.start
      = [10, 0] ∧
    ¬ ((10 : ℚ) ≤ 0) := by
  constructor
  · have h1 : segLoop 3 1 [⟨['b', '.'], 0, 0⟩] [] none =
        ([mkSeg [⟨['b', '.'], 0, 0⟩] 0 0], [], none) := by
      rw [segLoop_cons, if_neg (by decide), if_pos (Or.inr (Or.inl (by decide)))]
      rfl
    have h2 : segLoop 3 1 [⟨['a', '.'], 10, 10⟩, ⟨['b', '.'], 0, 0⟩] [] none =
        ([mkSeg [⟨['a', '.'], 10, 10⟩] 10 10, mkSeg [⟨['b', '.'], 0, 0⟩] 0 0],
          [], none) := by
      rw [segLoop_cons, if_neg (by decide), if_pos (Or.inr (Or.inl (by decide))), h1]
      rfl
    have h3 : processWords 3 1 [⟨['a', '.'], 10, 10⟩, ⟨['b', '.'], 0, 0⟩] =
        [mkSeg [⟨['a', '.'], 10, 10⟩] 10 10, mkSeg [⟨['b', '.'], 0, 0⟩] 0 0] := by
      unfold processWords
      rw [h2]
    rw [h3]
    rfl
  · norm_num

/-- C2 (amended): for positive `max_words_per_segment` and any word-timing
input whose word start times are non-decreasing (as transcription output is),
every emitted segment buffers at most `max_words_per_segment` words and the
emitted start times are non-decreasing. -/
theorem segmentTimer_wordCount_mono_spec (maxW : ℕ) (maxD : ℚ) (ws : List Word)
    (hmax : 0 < maxW) (hsorted : (ws.map Word.start).Sorted (· ≤ ·)) :
    (∀ seg ∈ processWords maxW maxD ws, seg.words.length ≤ maxW) ∧
    ((processWords maxW maxD ws).map Seg.start).Sorted (· ≤ ·) := by
  obtain ⟨hwc, hbuf⟩ := segLoop_wordCount maxW maxD ws [] none (by simpa using hmax)
  obtain ⟨A, _, _, D⟩ := segLoop_mono maxW maxD ws [] none hsorted
    (by intro s hs; cases hs)
  rcases processWords_flush_cases maxW maxD ws with ⟨_, hP⟩ | ⟨b, bs, cs, heq1, heq2, hP⟩
  · rw [hP]
    exact ⟨hwc, A⟩
  · rw [hP]
    constructor
    · intro seg hseg
      rcases List.mem_append.mp hseg with h | h
      · exact hwc seg h
      · simp only [List.mem_singleton] at h
        subst h
        show (b :: bs).length ≤ maxW
        rw [← heq1]
        exact le_of_lt hbuf
    · rw [List.map_append, List.map_singleton]
      apply List.pairwise_append.mpr
      refine ⟨A, by simp, ?_⟩
      intro a ha c hc
      simp only [List.mem_singleton] at hc
      obtain ⟨seg, hseg, rfl⟩ := List.mem_map.mp ha
      rw [hc]
      exact (D _ heq2).1 seg hseg

/-- Loop invariant about the shape and timing of emitted segments: every
emitted segment stores `duration = end - start`; its buffered words end with
the word that closed it, whose end time is the segment's end time, while every
earlier buffered word ends within `max_segment_duration` of the segment start;
a single-word segment starts at that word's start and ends at its end.  The
final buffer's words all end within `max_segment_duration` of the final
`current_start`, and (when no word has empty trimmed text) the final buffer is
empty or ends with the last input word. -/
lemma segLoop_duration_inv (maxW : ℕ) (maxD : ℚ) :
    ∀ (ws buf : List Word) (st : Option ℚ),
    (∀ s, st = some s → buf ≠ [] ∧ ∀ v ∈ buf, v.endT - s ≤ maxD) →
    (st = none → buf = []) →
    (∀ seg ∈ (segLoop maxW maxD ws buf st).1,
       seg.duration = seg.endT - seg.start ∧
       (∃ pre w, seg.words = pre ++ [w] ∧ seg.endT = w.endT ∧
          ∀ v ∈ pre, v.endT - seg.start ≤ maxD) ∧
       (∀ w, seg.words = [w] → seg.start = w.start ∧ seg.endT = w.endT)) ∧
    (∀ s, (segLoop maxW maxD ws buf st).2.2 = some s →
       (segLoop maxW maxD ws buf st).2.1 ≠ [] ∧
       ∀ v ∈ (segLoop maxW maxD ws buf st).2.1, v.endT - s ≤ maxD) ∧
    ((segLoop maxW maxD ws buf st).2.2 = none →
       (segLoop maxW maxD ws buf st).2.1 = []) ∧
    ((∀ w ∈ ws, stripChars w.text ≠ []) → ws ≠ [] →
       (segLoop maxW maxD ws buf st).2.1 = [] ∨
       (segLoop maxW maxD ws buf st).2.1.getLast? = ws.getLast?) := by
  intro ws
  induction ws with
  | nil =>
    intro buf st hQ hR
    rw [segLoop_nil]
    exact ⟨by simp, hQ, hR, fun _ h => absurd rfl h⟩
  | cons w rest ih =>
    intro buf st hQ hR
    rw [segLoop_cons]
    by_cases hskip : stripChars w.text = []
    · rw [if_pos hskip]
      obtain ⟨A, B, C, _⟩ := ih buf st hQ hR
      refine ⟨A, B, C, ?_⟩
      intro hne_all _
      exact absurd hskip (hne_all w (List.mem_cons_self w rest))
    · rw [if_neg hskip]
      by_cases hclose : maxW ≤ (buf ++ [w]).length ∨
          isSentenceEnd (stripChars w.text) = true ∨ maxD < w.endT - st.getD w.start
      · rw [if_pos hclose]
        obtain ⟨A_r, B_r, C_r, D_r⟩ := ih [] none (by intro s hs; cases hs)
          (fun _ => rfl)
        have hpre : ∀ v ∈ buf, v.endT - st.getD w.start ≤ maxD := by
          cases st with
          | some s =>
            intro v hv
            exact (hQ s rfl).2 v hv
          | none =>
            intro v hv
            rw [hR rfl] at hv
            simp at hv
        refine ⟨?_, B_r, C_r, ?_⟩
        · intro seg hseg
          rcases List.mem_cons.mp hseg with rfl | h
          · refine ⟨rfl, ⟨buf, w, rfl, rfl, fun v hv => hpre v hv⟩, ?_⟩
            intro w' hw'
            rw [mkSeg_words] at hw'
            have hbuf0 : buf = [] := by
              cases buf with
              | nil => rfl
              | cons x xs =>
                have hlen := congrArg List.length hw'
                simp only [List.length_append, List.length_cons,
                  List.length_nil] at hlen
                omega
            subst hbuf0
            simp only [List.nil_append, List.cons.injEq, and_true] at hw'
            subst hw'
            cases st with
            | some s => exact absurd rfl (hQ s rfl).1
            | none => exact ⟨rfl, rfl⟩
          · exact A_r seg h
        · intro hne_all _
          cases rest with
          | nil => exact Or.inl rfl
          | cons r rs =>
            have hd := D_r (fun v hv => hne_all v (List.mem_cons_of_mem _ hv))
              (List.cons_ne_nil r rs)
            rw [List.getLast?_cons_cons]
            exact hd
      · rw [if_neg hclose]
        push_neg at hclose
        obtain ⟨_, _, hdur⟩ := hclose
        obtain ⟨A_r, B_r, C_r, D_r⟩ := ih (buf ++ [w]) (some (st.getD w.start))
          (by
            intro s hs
            injection hs with hs
            constructor
            · simp
            · intro v hv
              rcases List.mem_append.mp hv with hv | hv
              · cases hst : st with
                | some s1 =>
                  have hb := (hQ s1 hst).2 v hv
                  rw [← hs, hst]
                  exact hb
                | none =>
                  rw [hR hst] at hv
                  simp at hv
              · simp only [List.mem_singleton] at hv
                subst hv
                rw [← hs]
                exact hdur)
          (by intro h; cases h)
        refine ⟨A_r, B_r, C_r, ?_⟩
        intro hne_all _
        cases rest with
        | nil =>
          rw [segLoop_nil]
          right
          show (buf ++ [w]).getLast? = [w].getLast?
          rw [List.getLast?_concat]
          rfl
        | cons r rs =>
          have hd := D_r (fun v hv => hne_all v (List.mem_cons_of_mem _ hv))
            (List.cons_ne_nil r rs)
          rw [List.getLast?_cons_cons]
          exact hd

/-- Concrete execution: words `("a", 0, 1)` then `("b", 2, 3)` with
`max_words_per_segment = 3` and `max_segment_duration = 1` produce a single
two-word segment spanning `[0, 3]`: the duration check fires only after the
second word is appended. -/
lemma processWords_eval_ab :
    processWords 3 1 [⟨['a'], 0, 1⟩, ⟨['b'], 2, 3⟩] =
      [mkSeg [⟨['a'], 0, 1⟩, ⟨['b'], 2, 3⟩] 0 3] := by
  have h1 : segLoop 3 1 [⟨['b'], 2, 3⟩] [⟨['a'], 0, 1⟩] (some 0) =
      ([mkSeg [⟨['a'], 0, 1⟩, ⟨['b'], 2, 3⟩] 0 3], [], none) := by
    rw [segLoop_cons, if_neg (by decide),
      if_pos (Or.inr (Or.inr (by show (1:ℚ) < 3 - 0; norm_num)))]
    rfl
  have h2 : segLoop 3 1 [⟨['a'], 0, 1⟩, ⟨['b'], 2, 3⟩] [] none =
      ([mkSeg [⟨['a'], 0, 1⟩, ⟨['b'], 2, 3⟩] 0 3], [], none) := by
    rw [segLoop_cons, if_neg (by decide), if_neg ?_]
    · exact h1
    · rintro (h | h | h)
      · exact absurd h (by decide)
      · exact absurd h (by decide)
      · exact absurd h (by show ¬((1:ℚ) < 1 - 0); norm_num)
  unfold processWords
  rw [h2]

/-- Counterexample to C3 as stated: with `max_segment_duration = 1`, the words
`("a", 0, 1)` and `("b", 2, 3)` (each with span `1 ≤ 1`) produce one emitted
segment of duration `3 > 1` consisting of **two** words, so an over-long
segment need not be a single word whose own span exceeds the limit. -/
theorem segmentTimer_over_duration_not_single_word :
    processWords 3 1 [⟨['a'], 0, 1⟩, ⟨['b'], 2, 3⟩] =
      [mkSeg [⟨['a'], 0, 1⟩, ⟨['b'], 2, 3⟩] 0 3] ∧
    (1 : ℚ) < (mkSeg [⟨['a'], 0, 1⟩, ⟨['b'], 2, 3⟩] 0 3).duration ∧
    (mkSeg [⟨['a'], 0, 1⟩, ⟨['b'], 2, 3⟩] 0 3).words.length = 2 ∧
    ((1 : ℚ) - 0 ≤ 1) ∧ ((3 : ℚ) - 2 ≤ 1) := by
  refine ⟨processWords_eval_ab, ?_, ?_, by norm_num, by norm_num⟩
  · rw [mkSeg_duration]
    norm_num
  · rw [mkSeg_words]
    rfl

/-- C3 (amended): for word inputs with no empty-trimmed-text words, an emitted
segment's duration exceeds `max_segment_duration` only because of its final
word: the segment's words end with the word whose end time is the segment's
end, and every earlier buffered word ends within `max_segment_duration` of the
segment start; in particular a single-word over-long segment is one whose own
span exceeds the limit. -/
theorem segmentTimer_over_duration_spec (maxW : ℕ) (maxD : ℚ) (ws : List Word)
    (hne : ∀ w ∈ ws, stripChars w.text ≠ []) :
    ∀ seg ∈ processWords maxW maxD ws, maxD < seg.duration →
      (∃ pre w, seg.words = pre ++ [w] ∧ seg.endT = w.endT ∧
         ∀ v ∈ pre, v.endT - seg.start ≤ maxD) ∧
      (∀ w, seg.words = [w] → maxD < w.endT - w.start) := by
  obtain ⟨A, B, _, D⟩ := segLoop_duration_inv maxW maxD ws [] none
    (by intro s hs; cases hs) (fun _ => rfl)
  have hloop : ∀ seg ∈ (segLoop maxW maxD ws [] none).1, maxD < seg.duration →
      (∃ pre w, seg.words = pre ++ [w] ∧ seg.endT = w.endT ∧
         ∀ v ∈ pre, v.endT - seg.start ≤ maxD) ∧
      (∀ w, seg.words = [w] → maxD < w.endT - w.start) := by
    intro seg hseg hdur
    obtain ⟨hd, hex, hsingle⟩ := A seg hseg
    refine ⟨hex, ?_⟩
    intro w hw
    obtain ⟨hs, he⟩ := hsingle w hw
    rw [← hs, ← he, ← hd]
    exact hdur
  rcases processWords_flush_cases maxW maxD ws with ⟨_, hP⟩ | ⟨b, bs, cs, heq1, heq2, hP⟩
  · rw [hP]
    exact hloop
  · rw [hP]
    intro seg hseg hdur
    rcases List.mem_append.mp hseg with h | h
    · exact hloop seg h hdur
    · exfalso
      simp only [List.mem_singleton] at h
      subst h
      have hws_ne : ws ≠ [] := by
        rintro rfl
        rw [segLoop_nil] at heq2
        cases heq2
      rcases D hne hws_ne with h0 | h0
      · rw [heq1] at h0
        cases h0
      · rw [heq1] at h0
        have hL : (b :: bs).getLast? =
            some ((b :: bs).getLast (List.cons_ne_nil b bs)) :=
          List.getLast?_eq_getLast _ _
        have hwsL : ws.getLast? =
            some ((b :: bs).getLast (List.cons_ne_nil b bs)) := by
          rw [← h0, hL]
        have hLbound :
            ((b :: bs).getLast (List.cons_ne_nil b bs)).endT - cs ≤ maxD :=
          (B cs heq2).2 _ (by rw [heq1]; exact List.getLast_mem _)
        rw [mkSeg_duration, hwsL] at hdur
        have hdur2 : maxD <
            ((b :: bs).getLast (List.cons_ne_nil b bs)).endT - cs := hdur
        linarith

/-- Witness for `segmentTimer_over_duration_spec` at the concrete over-long
two-word segment. -/
theorem segmentTimer_over_duration_spec_witness :
    ∃ pre w, (mkSeg [⟨['a'], 0, 1⟩, ⟨['b'], 2, 3⟩] 0 3).words = pre ++ [w] ∧
      (mkSeg [⟨['a'], 0, 1⟩, ⟨['b'], 2, 3⟩] 0 3).endT = w.endT ∧
      ∀ v ∈ pre, v.endT - (mkSeg [⟨['a'], 0, 1⟩, ⟨['b'], 2, 3⟩] 0 3).start ≤ 1 := by
  have h := segmentTimer_over_duration_spec 3 1 [⟨['a'], 0, 1⟩, ⟨['b'], 2, 3⟩]
    (by
      intro w hw
      rcases List.mem_cons.mp hw with rfl | hw
      · decide
      · rcases List.mem_cons.mp hw with rfl | hw
        · decide
        · simp at hw)
    (mkSeg [⟨['a'], 0, 1⟩, ⟨['b'], 2, 3⟩] 0 3)
    (by rw [processWords_eval_ab]; exact List.mem_singleton_self _)
    (by rw [mkSeg_duration]; norm_num)
  exact h.1

/-- The per-word loop never looks at words whose stripped text is empty:
running it on the input with those words removed gives the identical loop
state and output. -/
lemma segLoop_filter (maxW : ℕ) (maxD : ℚ) :
    ∀ (ws buf : List Word) (st : Option ℚ),
    segLoop maxW maxD ws buf st =
      segLoop maxW maxD (ws.filter (fun w => !(stripChars w.text).isEmpty)) buf st := by
  intro ws
  induction ws with
  | nil => intro buf st; rfl
  | cons w rest ih =>
    intro buf st
    rw [List.filter_cons]
    by_cases hskip : stripChars w.text = []
    · have hcond : (!(stripChars w.text).isEmpty) = false := by
        rw [hskip]
        rfl
      rw [hcond]
      simp only [Bool.false_eq_true, if_false]
      rw [segLoop_cons, if_pos hskip]
      exact ih buf st
    · have hcond : (!(stripChars w.text).isEmpty) = true := by
        rcases h : stripChars w.text with _ | ⟨c, cs⟩
        · exact absurd h hskip
        · rfl
      rw [hcond]
      simp only [if_true]
      rw [segLoop_cons, segLoop_cons, if_neg hskip, if_neg hskip]
      by_cases hclose : maxW ≤ (buf ++ [w]).length ∨
          isSentenceEnd (stripChars w.text) = true ∨ maxD < w.endT - st.getD w.start
      · rw [if_pos hclose, if_pos hclose, ih [] none]
      · rw [if_neg hclose, if_neg hclose]
        exact ih _ _

lemma getLast?_cons_of_ne {α : Type} (x : α) {l : List α} (h : l ≠ []) :
    (x :: l).getLast? = l.getLast? := by
  cases l with
  | nil => exact absurd rfl h
  | cons y ys => exact List.getLast?_cons_cons

lemma getLast?_filter (p : Word → Bool) :
    ∀ (ws : List Word) (w : Word), ws.getLast? = some w → p w = true →
    (ws.filter p).getLast? = some w := by
  intro ws
  induction ws with
  | nil => intro w h _; cases h
  | cons x rest ih =>
    intro w h hp
    cases rest with
    | nil =>
      have hxw : x = w := by
        have : some x = some w := h
        injection this
      subst hxw
      rw [List.filter_cons, if_pos hp]
      rfl
    | cons y rest' =>
      rw [List.getLast?_cons_cons] at h
      have hrec := ih w h hp
      rw [List.filter_cons]
      by_cases hx : p x = true
      · rw [if_pos hx]
        have hne : (y :: rest').filter p ≠ [] := by
          intro h0
          rw [h0] at hrec
          cases hrec
        rw [getLast?_cons_of_ne x hne]
        exact hrec
      · rw [if_neg hx]
        exact hrec

/-- Concrete execution for the empty-word flush quirk: `("a", 0, 1)` followed
by a whitespace-only word `("", 5, 99)` flushes a segment ending at `99`, the
end time of the skipped empty word. -/
lemma processWords_eval_empty_word :
    processWords 3 1 [⟨['a'], 0, 1⟩, ⟨[], 5, 99⟩] = [mkSeg [⟨['a'], 0, 1⟩] 0 99] := by
  have h1 : segLoop 3 1 [(⟨[], 5, 99⟩ : Word)] [⟨['a'], 0, 1⟩] (some 0) =
      ([], [⟨['a'], 0, 1⟩], some 0) := by
    rw [segLoop_cons, if_pos (by decide)]
    rfl
  have h2 : segLoop 3 1 [⟨['a'], 0, 1⟩, ⟨[], 5, 99⟩] [] none =
      ([], [⟨['a'], 0, 1⟩], some 0) := by
    rw [segLoop_cons, if_neg (by decide), if_neg ?_]
    · exact h1
    · rintro (h | h | h)
      · exact absurd h (by decide)
      · exact absurd h (by decide)
      · exact absurd h (by show ¬((1:ℚ) < 1 - 0); norm_num)
  unfold processWords
  rw [h2]
  rfl

/-- Concrete execution on the same input with the empty word removed: the
flushed segment now ends at `1`. -/
lemma processWords_eval_single_a :
    processWords 3 1 [⟨['a'], 0, 1⟩] = [mkSeg [⟨['a'], 0, 1⟩] 0 1] := by
  have h2 : segLoop 3 1 [(⟨['a'], 0, 1⟩ : Word)] [] none =
      ([], [⟨['a'], 0, 1⟩], some 0) := by
    rw [segLoop_cons, if_neg (by decide), if_neg ?_]
    · rfl
    · rintro (h | h | h)
      · exact absurd h (by decide)
      · exact absurd h (by decide)
      · exact absurd h (by show ¬((1:ℚ) < 1 - 0); norm_num)
  unfold processWords
  rw [h2]
  rfl

/-- Counterexample to C8 as stated: dropping the empty-trimmed-text word
`("", 5, 99)` changes the output: with it, the flushed segment ends at `99`
(the skipped word's end, via `words[-1]`); without it, at `1`. -/
theorem segmentTimer_empty_word_changes_output :
    [(⟨['a'], 0, 1⟩ : Word), ⟨[], 5, 99⟩].filter
      (fun w => !(stripChars w.text).isEmpty) = [⟨['a'], 0, 1⟩] ∧
    processWords 3 1 [⟨['a'], 0, 1⟩, ⟨[], 5, 99⟩] = [mkSeg [⟨['a'], 0, 1⟩] 0 99] ∧
    processWords 3 1 [⟨['a'], 0, 1⟩] = [mkSeg [⟨['a'], 0, 1⟩] 0 1] ∧
    (mkSeg [⟨['a'], 0, 1⟩] 0 99).endT ≠ (mkSeg [⟨['a'], 0, 1⟩] 0 1).endT := by
  refine ⟨rfl, processWords_eval_empty_word, processWords_eval_single_a, ?_⟩
  rw [mkSeg_endT, mkSeg_endT]
  norm_num

/-- C8 (amended): words with empty trimmed text are dropped without affecting
the output, **provided** the last word of the input has non-empty trimmed
text; otherwise the flush path reads the skipped last word's end time via
`words[-1]`. -/
theorem segmentTimer_empty_words_spec (maxW : ℕ) (maxD : ℚ) (ws : List Word)
    (hlast : ∀ w, ws.getLast? = some w → stripChars w.text ≠ []) :
    processWords maxW maxD ws =
      processWords maxW maxD (ws.filter (fun w => !(stripChars w.text).isEmpty)) := by
  have hfil := (segLoop_filter maxW maxD ws [] none).symm
  rcases processWords_flush_cases maxW maxD ws with
    ⟨h0, hP⟩ | ⟨b, bs, cs, heq1, heq2, hP⟩ <;>
    rcases processWords_flush_cases maxW maxD
        (ws.filter (fun w => !(stripChars w.text).isEmpty)) with
      ⟨h0f, hPf⟩ | ⟨b2, bs2, cs2, heq1f, heq2f, hPf⟩
  · rw [hP, hPf, hfil]
  · exfalso
    rw [hfil] at heq1f heq2f
    rcases h0 with h0 | h0
    · rw [h0] at heq1f
      cases heq1f
    · rw [h0] at heq2f
      cases heq2f
  · exfalso
    rw [hfil] at h0f
    rcases h0f with h0f | h0f
    · rw [heq1] at h0f
      cases h0f
    · rw [heq2] at h0f
      cases h0f
  · rw [hP, hPf, hfil]
    rw [hfil] at heq1f heq2f
    have hb : b2 :: bs2 = b :: bs := heq1f.symm.trans heq1
    have hcs : cs2 = cs := by
      have := heq2f.symm.trans heq2
      injection this
    have hws_ne : ws ≠ [] := by
      rintro rfl
      rw [segLoop_nil] at heq2
      cases heq2
    have hwsL : ws.getLast? = some (ws.getLast hws_ne) :=
      List.getLast?_eq_getLast _ _
    have hfL : (ws.filter (fun w => !(stripChars w.text).isEmpty)).getLast? =
        some (ws.getLast hws_ne) := by
      apply getLast?_filter _ ws _ hwsL
      have hne := hlast _ hwsL
      show (!(stripChars (ws.getLast hws_ne).text).isEmpty) = true
      rcases h : stripChars (ws.getLast hws_ne).text with _ | ⟨c, cs'⟩
      · exact absurd h hne
      · rfl
    rw [hb, hcs, hwsL, hfL]

/-- Witness for `segmentTimer_empty_words_spec`: a leading empty-text word is
dropped without changing the output. -/
theorem segmentTimer_empty_words_spec_witness :
    processWords 3 1 [⟨[' '], 7, 8⟩, ⟨['a'], 0, 1⟩] =
      processWords 3 1 ([⟨[' '], 7, 8⟩, ⟨['a'], 0, 1⟩].filter
        (fun w => !(stripChars w.text).isEmpty)) := by
  apply segmentTimer_empty_words_spec
  intro w hw
  have hw2 : some (⟨['a'], 0, 1⟩ : Word) = some w := hw
  injection hw2 with hw2
  rw [← hw2]
  decide

lemma dropWhile_ws_head :
    ∀ (s : List Char) {c : Char} {cs : List Char},
    s.dropWhile Char.isWhitespace = c :: cs → c.isWhitespace = false := by
  intro s
  induction s with
  | nil => intro c cs h; cases h
  | cons x xs ih =>
    intro c cs h
    rw [List.dropWhile_cons] at h
    by_cases hx : x.isWhitespace = true
    · rw [if_pos hx] at h
      exact ih h
    · rw [if_neg hx] at h
      injection h with h1 _
      subst h1
      simpa using hx

/-- The first character of a non-empty stripped string is not whitespace. -/
lemma stripChars_head {s : List Char} {c : Char} {cs : List Char}
    (h : stripChars s = c :: cs) : c.isWhitespace = false := by
  unfold stripChars at h
  obtain ⟨r, hr⟩ :=
    List.dropWhile_suffix (l := (s.dropWhile Char.isWhitespace).reverse)
      Char.isWhitespace
  have hpre : ((s.dropWhile Char.isWhitespace).reverse.dropWhile
      Char.isWhitespace).reverse ++ r.reverse = s.dropWhile Char.isWhitespace := by
    rw [← List.reverse_append, hr, List.reverse_reverse]
  rw [h] at hpre
  exact dropWhile_ws_head s hpre.symm

/-- Cleanup of a string whose first character is not whitespace is
non-empty. -/
lemma clean_ne_nil_of_head {c : Char} (cs : List Char)
    (hc : c.isWhitespace = false) : cleanSubtitleText (c :: cs) ≠ [] := by
  have hps : pySplit (c :: cs) = splitAux [c] cs := by
    unfold pySplit
    rw [splitAux_cons, if_neg (by rw [hc]; exact Bool.false_ne_true)]
  have hne := splitAux_ne_nil cs [c] (by simp)
  rcases hsplit : splitAux [c] cs with _ | ⟨w, rest⟩
  · exact absurd hsplit hne
  · have hwords := splitAux_words cs [c]
      (by intro d hd; simp only [List.mem_singleton] at hd; rw [hd]; exact hc)
    rw [hsplit] at hwords
    have hwne : w ≠ [] := (hwords w (by simp)).1
    have hcol : ∃ x xs, joinSpace (pySplit (c :: cs)) = x :: xs := by
      rw [hps, hsplit]
      rcases rest with _ | ⟨v, vs⟩
      · rcases w with _ | ⟨x, xs⟩
        · exact absurd rfl hwne
        · exact ⟨x, xs, rfl⟩
      · rcases w with _ | ⟨x, xs⟩
        · exact absurd rfl hwne
        · refine ⟨x, xs ++ ' ' :: joinSpace (v :: vs), ?_⟩
          rw [joinSpace_cons_ne _ (by simp)]
          simp
    obtain ⟨x, xs, hcol⟩ := hcol
    have hu : canonical (upperFirst (joinSpace (pySplit (c :: cs)))) = true :=
      upperFirst_canonical (canonical_collapse _)
    rw [hcol] at hu
    have hu' : upperFirst (x :: xs) = x.toUpper :: xs := rfl
    rw [hu'] at hu
    unfold canonical at hu
    simp only [List.isEmpty_cons, Bool.false_or] at hu
    obtain ⟨hne', _, _⟩ := canonFrom_true_elim hu
    have hchain : cleanSubtitleText (c :: cs) =
        x.toUpper :: (replacePair '?' (replacePair '!' (replacePair '.'
          (replacePair ',' xs)))) := by
      unfold cleanSubtitleText
      rw [hcol, hu', replacePair_head _ hne', replacePair_head _ hne',
        replacePair_head _ hne', replacePair_head _ hne']
    rw [hchain]
    simp

/-- The cleaned join of a non-empty buffer of non-empty stripped words is
non-empty. -/
lemma clean_join_ne_nil {buf : List Word} (hbne : buf ≠ [])
    (hw : ∀ w ∈ buf, stripChars w.text ≠ []) :
    cleanSubtitleText (joinSpace (buf.map (fun w => stripChars w.text))) ≠ [] := by
  rcases buf with _ | ⟨w0, rest⟩
  · exact absurd rfl hbne
  · rcases hst : stripChars w0.text with _ | ⟨c, cs⟩
    · exact absurd hst (hw w0 (by simp))
    · have hc : c.isWhitespace = false := stripChars_head hst
      have hjoin : ∃ t,
          joinSpace ((w0 :: rest).map (fun w => stripChars w.text)) = c :: t := by
        rw [List.map_cons, hst]
        rcases hmap : rest.map (fun w => stripChars w.text) with _ | ⟨v, vs⟩
        · rw [hmap]
          exact ⟨cs, rfl⟩
        · rw [hmap]
          refine ⟨cs ++ ' ' :: joinSpace (v :: vs), ?_⟩
          rw [joinSpace_cons_ne _ (by simp)]
          simp
      obtain ⟨t, hjoin⟩ := hjoin
      rw [hjoin]
      exact clean_ne_nil_of_head t hc

/-- Loop invariant: words with empty stripped text never enter a buffer, so
every emitted segment is built from a non-empty buffer of words with
non-empty stripped text, and its text is the cleaned join of those words. -/
lemma segLoop_words_nonempty (maxW : ℕ) (maxD : ℚ) :
    ∀ (ws buf : List Word) (st : Option ℚ),
    (∀ w ∈ buf, stripChars w.text ≠ []) →
    (∀ seg ∈ (segLoop maxW maxD ws buf st).1,
       seg.words ≠ [] ∧ (∀ w ∈ seg.words, stripChars w.text ≠ []) ∧
       seg.text = cleanSubtitleText
         (joinSpace (seg.words.map (fun w => stripChars w.text)))) ∧
    (∀ w ∈ (segLoop maxW maxD ws buf st).2.1, stripChars w.text ≠ []) := by
  intro ws
  induction ws with
  | nil =>
    intro buf st hbuf
    rw [segLoop_nil]
    exact ⟨by simp, hbuf⟩
  | cons w rest ih =>
    intro buf st hbuf
    rw [segLoop_cons]
    by_cases hskip : stripChars w.text = []
    · rw [if_pos hskip]
      exact ih buf st hbuf
    · rw [if_neg hskip]
      have hbuf' : ∀ v ∈ buf ++ [w], stripChars v.text ≠ [] := by
        intro v hv
        rcases List.mem_append.mp hv with hv | hv
        · exact hbuf v hv
        · simp only [List.mem_singleton] at hv
          subst hv
          exact hskip
      by_cases hclose : maxW ≤ (buf ++ [w]).length ∨
          isSentenceEnd (stripChars w.text) = true ∨ maxD < w.endT - st.getD w.start
      · rw [if_pos hclose]
        obtain ⟨iha, ihb⟩ := ih [] none (by simp)
        refine ⟨?_, ihb⟩
        intro seg hseg
        rcases List.mem_cons.mp hseg with rfl | h
        · exact ⟨by simp, by simpa using hbuf', rfl⟩
        · exact iha seg h
      · rw [if_neg hclose]
        exact ih (buf ++ [w]) (some (st.getD w.start)) hbuf'

/-- C10: every SubtitleSegment emitted by `_create_subtitle_segments` has
non-empty text: the word-level path only emits segments built from at least
one word with non-empty trimmed text, and the segment-level fallback only
emits when the segment's trimmed text is non-empty. -/
theorem segmentTimer_text_nonempty (maxW : ℕ) (maxD : ℚ)
    (segments : List TranscriptionSegment) :
    ∀ s ∈ createSubtitleSegments maxW maxD segments, s.text ≠ [] := by
  intro s hs
  unfold createSubtitleSegments at hs
  rw [List.mem_flatMap] at hs
  obtain ⟨seg, _, hs⟩ := hs
  rcases hws : seg.words with _ | ⟨w0, wrest⟩
  · rw [hws] at hs
    by_cases htext : stripChars seg.text = []
    · rw [if_pos htext] at hs
      simp at hs
    · rw [if_neg htext] at hs
      simp only [List.mem_singleton] at hs
      subst hs
      show cleanSubtitleText (stripChars seg.text) ≠ []
      rcases hh : stripChars seg.text with _ | ⟨c, cs⟩
      · exact absurd hh htext
      · exact clean_ne_nil_of_head cs (stripChars_head hh)
  · rw [hws] at hs
    obtain ⟨hloop, hbufw⟩ :=
      segLoop_words_nonempty maxW maxD (w0 :: wrest) [] none (by simp)
    rcases processWords_flush_cases maxW maxD (w0 :: wrest) with
      ⟨_, hP⟩ | ⟨b, bs, cs, heq1, heq2, hP⟩
    · rw [hP] at hs
      obtain ⟨hne, hwords, htext⟩ := hloop s hs
      rw [htext]
      exact clean_join_ne_nil hne hwords
    · rw [hP] at hs
      rcases List.mem_append.mp hs with h | h
      · obtain ⟨hne, hwords, htext⟩ := hloop s h
        rw [htext]
        exact clean_join_ne_nil hne hwords
      · simp only [List.mem_singleton] at h
        subst h
        rw [mkSeg_text]
        apply clean_join_ne_nil (by simp)
        intro v hv
        apply hbufw
        rw [heq1]
        exact hv

/-- Witness for `segmentTimer_text_nonempty` at a concrete fallback-path
transcription segment. -/
theorem segmentTimer_text_nonempty_witness :
    ({ text := cleanSubtitleText (stripChars ['h', 'i']), start := 0, endT := 1,
       duration := 1 - 0, words := [] } : Seg).text ≠ [] :=
  segmentTimer_text_nonempty 3 1 [⟨['h', 'i'], 0, 1, []⟩] _
    (List.mem_singleton_self _)

/-- Witness for `segmentTimer_wordCount_mono_spec` on a concrete sorted
input. -/
theorem segmentTimer_wordCount_mono_spec_witness :
    ((processWords 3 1 [⟨['h', 'i'], 0, 1⟩, ⟨['y', 'o'], 2, 3⟩]).map
      Seg.start).Sorted (· ≤ ·) :=
  (segmentTimer_wordCount_mono_spec 3 1 _ (by norm_num) (by
    simp only [List.map_cons, List.map_nil, List.sorted_cons, List.mem_cons,
      List.mem_singleton, List.not_mem_nil]
    constructor
    · intro b hb
      rcases hb with hb | hb
      · rw [hb]; norm_num
      · simp at hb
    · simp [List.sorted_cons])).2

/-! ## Composer media-handle lifecycle

Control-flow model of `VideoComposer.compose_video`
(`video_composer.py`, lines 30-111).

The body runs inside one `try`: it loads `video_clip` (line 51) and
`audio_clip` (line 52), runs `_process_background_video` (line 58, which
re-raises on failure, line 225), attaches audio (line 61, creating
`final_video`), optionally renders subtitles (lines 64-70 — any subtitle
failure is caught there and composition continues), then either splits or
exports.  The only `close()` calls on the three handles are on the two
success paths (lines 81-83 and 102-104); the `except` block (lines 109-111)
logs and re-raises without closing anything.  `failsAt` says which step, if
any, raises. -/

inductive ComposeStep
  | loadVideo | loadAudio | processBackground | exportVideo
  deriving DecidableEq, Repr

structure ComposeRun where
  /-- the call returned normally (no exception escaped) -/
  ok : Bool
  videoOpened : Bool
  audioOpened : Bool
  finalOpened : Bool
  videoClosed : Bool
  audioClosed : Bool
  finalClosed : Bool
  deriving DecidableEq, Repr

/-- One invocation of `compose_video`, with failure injected at the steps for
which `failsAt` is `true` (subtitle rendering is absent because its failures
are caught at lines 66-70 and never escape). -/
def composeVideo (failsAt : ComposeStep → Bool) : ComposeRun :=
  if failsAt .loadVideo then
    -- `VideoFileClip(...)` raises: nothing was opened, nothing is closed
    ⟨false, false, false, false, false, false, false⟩
  else if failsAt .loadAudio then
    -- `AudioFileClip(...)` raises: the video handle stays open
    ⟨false, true, false, false, false, false, false⟩
  else if failsAt .processBackground then
    -- `_process_background_video` re-raises: video and audio stay open
    ⟨false, true, true, false, false, false, false⟩
  else if failsAt .exportVideo then
    -- `write_videofile` / `_split_and_export_video` raises after
    -- `final_video` exists: all three handles stay open
    ⟨false, true, true, true, false, false, false⟩
  else
    -- success path: lines 81-83 or 102-104 close all three handles
    ⟨true, true, true, true, true, true, true⟩

/-- Counterexample to C7 as stated: when the export step fails, the background
video clip was loaded during the invocation but is not closed on that exit
path (nor are the audio and composed-video handles). -/
theorem composer_handles_leak_on_failure :
    (composeVideo (fun s => s == ComposeStep.exportVideo)).videoOpened = true ∧
    (composeVideo (fun s => s == ComposeStep.exportVideo)).videoClosed = false ∧
    (composeVideo (fun s => s == ComposeStep.exportVideo)).ok = false := by
  refine ⟨?_, ?_, ?_⟩ <;> rfl

/-- C7 (amended): the three media handles are all closed when `compose_video`
returns successfully; on an exception exit, no handle opened during the
invocation is closed. -/
theorem composer_handles_spec (failsAt : ComposeStep → Bool) :
    ((composeVideo failsAt).ok = true →
      (composeVideo failsAt).videoClosed = true ∧
      (composeVideo failsAt).audioClosed = true ∧
      (composeVideo failsAt).finalClosed = true) ∧
    ((composeVideo failsAt).ok = false →
      (composeVideo failsAt).videoClosed = false ∧
      (composeVideo failsAt).audioClosed = false ∧
      (composeVideo failsAt).finalClosed = false) := by
  unfold composeVideo
  split_ifs <;> simp

/-- Witness for `composer_handles_spec` at a failure-free run. -/
theorem composer_handles_spec_witness :
    (composeVideo (fun _ => false)).videoClosed = true ∧
    (composeVideo (fun _ => false)).audioClosed = true ∧
    (composeVideo (fun _ => false)).finalClosed = true :=
  (composer_handles_spec (fun _ => false)).1 rfl

end ShortsPipeline
